import Mathlib

/-!
Verification of the Data Connect normalized query cache
(`packages/data-connect/src/cache/Cache.ts` together with its utility
module defining `isScalar`, `isShallowSelectionSet` and `isNormalizeable`).

The embedding models JavaScript runtime values as the inductive type
`Value`.  Selection sets are field-keyed records in insertion order,
mirroring the enumeration order of `Object.entries`.  The mutable objects
of the source (stub data objects, i.e. the views registered as listeners
of a backing data object) live on an explicit heap inside the `Cache`
state; all other data is passed by value, which is observationally
faithful because the source never mutates anything except registered
views, the two cache maps and the backing records themselves.
-/

/-- A JavaScript runtime value as seen by the cache: the FDC scalars
(`undefined`, `null`, booleans, numbers, strings), arrays, and plain
objects given as field lists in insertion order.  Numbers are modelled as
integers; the cache never computes with them. -/
inductive Value where
  | undef : Value
  | vnull : Value
  | vbool : Bool → Value
  | vnum : Int → Value
  | vstr : String → Value
  | varr : List Value → Value
  | vobj : List (String × Value) → Value

/-- `Object.entries` of a value: objects give their field list, arrays
and strings give index entries, numbers and booleans have none, and on
`null`/`undefined` the `ToObject` coercion throws a `TypeError`
(modelled as `none`). -/
def entriesOf : Value → Option (List (String × Value))
  | .vobj fs => some fs
  | .varr xs => some (xs.enum.map (fun p => (toString p.1, p.2)))
  | .vstr s => some (s.data.enum.map (fun p => (toString p.1, Value.vstr (String.mk [p.2]))))
  | .vnull => none
  | .undef => none
  | .vbool _ => some []
  | .vnum _ => some []

/-- `isScalar` from the utility module: true for `undefined`, `null`,
booleans, numbers and strings; false for arrays and other objects. -/
def isScalar : Value → Bool
  | .varr _ => false
  | .vobj _ => false
  | _ => true

/-- `isShallowSelectionSet` from the utility module: a non-null,
non-array object with at least one own field. -/
def isShallowSelectionSet : Value → Bool
  | .vobj fs => !fs.isEmpty
  | _ => false

/-- `isNormalizeable` from the utility module: a non-null, non-array
object that has both a `__typename` and an `__id` field.  Only presence
is checked, not the field values. -/
def isNormalizeable : Value → Bool
  | .vobj fs => fs.any (fun p => p.1 == "__typename") && fs.any (fun p => p.1 == "__id")
  | _ => false

/-- One character of a JSON string body: quote and backslash get a
backslash escape, everything else is copied. -/
def escChar (c : Char) : List Char :=
  if c = '"' then ['\\', '"']
  else if c = '\\' then ['\\', '\\']
  else [c]

/-- Escape a JSON string body. -/
def escList : List Char → List Char
  | [] => []
  | c :: t => escChar c ++ escList t

/-- A JSON string literal: escaped body between double quotes. -/
def quoteJson (s : String) : String :=
  ⟨'"' :: escList s.data ++ ['"']⟩

mutual

/-- `JSON.stringify`, restricted to the value forms above.  Returns
`none` where the real function returns the `undefined` value (top-level
`undefined`); inside arrays such elements serialize as `null`, inside
objects the property is omitted.  String escaping covers the quote and
backslash characters, the only ones the cache's inputs can need. -/
def jsonStringify : Value → Option String
  | .undef => none
  | .vnull => some "null"
  | .vbool b => some (cond b "true" "false")
  | .vnum n => some (toString n)
  | .vstr s => some (quoteJson s)
  | .varr xs => some ("[" ++ String.intercalate "," (jsonArr xs) ++ "]")
  | .vobj fs => some ("\x7b" ++ String.intercalate "," (jsonObj fs) ++ "\x7d")
termination_by structural v => v

/-- Array elements under `JSON.stringify`: `undefined` becomes `null`. -/
def jsonArr : List Value → List String
  | [] => []
  | x :: t => ((jsonStringify x).getD "null") :: jsonArr t
termination_by structural xs => xs

/-- Object properties under `JSON.stringify`: properties whose value
serializes to `undefined` are omitted. -/
def jsonObj : List (String × Value) → List String
  | [] => []
  | (k, v) :: t =>
    match jsonStringify v with
    | some sv => (quoteJson k ++ ":" ++ sv) :: jsonObj t
    | none => jsonObj t
termination_by structural fs => fs

end


mutual

/-- JavaScript `String(v)` coercion, needed because the default
`Array.prototype.sort` comparator compares elements by their string
coercion.  Arrays join their elements with commas (`null`/`undefined`
elements become empty), plain objects coerce to `"[object Object]"`. -/
def jsToString : Value → String
  | .undef => "undefined"
  | .vnull => "null"
  | .vbool b => cond b "true" "false"
  | .vnum n => toString n
  | .vstr s => s
  | .varr xs => String.intercalate "," (jsElems xs)
  | .vobj _ => "[object Object]"
termination_by structural v => v

/-- Elements of an array under `Array.prototype.toString`. -/
def jsElems : List Value → List String
  | [] => []
  | x :: t =>
    (match x with
     | .undef => ""
     | .vnull => ""
     | _ => jsToString x) :: jsElems t
termination_by structural xs => xs

end

/-- Code-unit comparison of two character lists, the order underlying
JavaScript string comparison. -/
def charsLe : List Char → List Char → Bool
  | [], _ => true
  | _ :: _, [] => false
  | a :: as, b :: bs =>
    if a.val.toNat = b.val.toNat then charsLe as bs
    else decide (a.val.toNat < b.val.toNat)

/-- JavaScript `s1 <= s2` on strings. -/
def strLe (a b : String) : Bool := charsLe a.data b.data

/-- The string the default sort comparator derives from one
`Object.entries` pair `[key, value]`: `String([k, v])`, which is the key
and the element coercion of the value joined by a comma. -/
def entryCo (p : String × Value) : String :=
  p.1 ++ "," ++
    (match p.2 with
     | .undef => ""
     | .vnull => ""
     | v => jsToString v)

/-- Insert an entry into a list sorted by `entryCo`, after any entry
comparing less-or-equal; together with `jsSort` this implements the
stable default `Array.prototype.sort`. -/
def sortInsert (x : String × Value) : List (String × Value) → List (String × Value)
  | [] => [x]
  | y :: ys => if strLe (entryCo y) (entryCo x) then y :: sortInsert x ys else x :: y :: ys

/-- `Object.entries(vars).sort()`: stable sort of the entries by the
default string-coercion comparator. -/
def jsSort (l : List (String × Value)) : List (String × Value) :=
  l.foldl (fun acc x => sortInsert x acc) []

/-- `Cache.srtCacheKey`: the sorted entries of the variables record,
serialized by `JSON.stringify`, appended to the query name.  The
`TypeError` `Object.entries` throws on `null`/`undefined` variables is
modelled at the `updateCache` entry (which guards on `entriesOf vars`),
so the key function itself is stated on the defined entries. -/
def srtCacheKey (queryName : String) (vars : Value) : String :=
  queryName ++ "|" ++
    ((jsonStringify (.varr ((jsSort ((entriesOf vars).getD [])).map (fun p => Value.varr [.vstr p.1, p.2])))).getD "undefined")

/-- `Cache.bdoCacheKey`: the type name, a pipe, and the
`JSON.stringify` of the identifier (`undefined` prints as `undefined`
through string concatenation). -/
def bdoCacheKey (typename : String) (id : Value) : String :=
  typename ++ "|" ++ ((jsonStringify id).getD "undefined")

/-- A field value of a cached selection set (an entry of a rebuilt
record held in the result tree or on the view heap):
* `prim v` — a value stored as-is: a scalar passed through by
  `cacheField`, an original mixed array stored unmodified, or a raw
  server value written by `updateFromServer`;
* `narr xs` — an array rebuilt element by element;
* `nobj fs` — a rebuilt selection set that was not normalizable (inert
  nested data, never registered anywhere);
* `ref vid` — a stub data object (view), living at index `vid` of the
  view heap so that listener updates can mutate it in place. -/
inductive NVal where
  | prim : Value → NVal
  | narr : List NVal → NVal
  | nobj : List (String × NVal) → NVal
  | ref : Nat → NVal

/-- A stub data object on the heap: its fields in insertion order. -/
abbrev Sdo := List (String × NVal)

/-- `BackingDataObject`: the canonical record for one entity.
`serverValues` are raw server values keyed by field name, `listeners`
maps each field name to the set of heap indices of the views that must
be updated when that field changes (a JavaScript `Set` of object
references, modelled as a duplicate-free list of heap indices in
insertion order). -/
structure BackingDataObject where
  typedKey : String
  serverValues : List (String × Value)
  listeners : List (String × List Nat)

/-- The `Cache` instance state: the view heap (embedding artifact
holding every mutable stub data object ever handed out), the
`bdoCache` map and the `srtCache` map, both in insertion order. -/
structure Cache where
  heap : List Sdo
  bdoCache : List (String × BackingDataObject)
  srtCache : List (String × List (String × NVal))

/-- The state of a freshly constructed `Cache`. -/
def emptyCache : Cache := ⟨[], [], []⟩

/-- `Map.get` / property lookup on an insertion-ordered map. -/
def lookupA {β : Type} : List (String × β) → String → Option β
  | [], _ => none
  | (k', v) :: t, k => if k' = k then some v else lookupA t k

/-- `Map.set` / property assignment on an insertion-ordered map:
replaces the value at an existing key in place, appends a new key. -/
def setA {β : Type} : List (String × β) → String → β → List (String × β)
  | [], k, v => [(k, v)]
  | (k', v') :: t, k, v => if k' = k then (k, v) :: t else (k', v') :: setA t k v

/-- `Set.add` on a set of heap indices: no-op when present, append when
absent. -/
def addId (l : List Nat) (vid : Nat) : List Nat :=
  if vid ∈ l then l else l ++ [vid]

mutual

/-- Computable size of a cached field value, used to bound the
dereferencing depth of `resolveNVal`. -/
def nvalSize : NVal → Nat
  | .prim _ => 1
  | .narr xs => 1 + nvalListSize xs
  | .nobj fs => 1 + nvalFieldsSize fs
  | .ref _ => 1
termination_by structural nv => nv

/-- Size of a list of cached field values. -/
def nvalListSize : List NVal → Nat
  | [] => 1
  | x :: t => 1 + nvalSize x + nvalListSize t
termination_by structural xs => xs

/-- Size of a field list of cached values. -/
def nvalFieldsSize : List (String × NVal) → Nat
  | [] => 1
  | (_, x) :: t => 1 + nvalSize x + nvalFieldsSize t
termination_by structural fs => fs

end

/-- Read back the plain value a cached field currently denotes,
dereferencing views through the heap.  Fuel only bounds the recursion
depth of the embedding; view references always point to previously
allocated heap cells, so every call site passes ample fuel. -/
def resolveNVal (heap : List Sdo) : Nat → NVal → Value
  | 0, _ => .vnull
  | _ + 1, .prim v => v
  | fuel + 1, .narr xs => .varr (xs.map (resolveNVal heap fuel))
  | fuel + 1, .nobj fs => .vobj (fs.map (fun p => (p.1, resolveNVal heap fuel p.2)))
  | fuel + 1, .ref vid =>
    match heap.get? vid with
    | some sdo => .vobj (sdo.map (fun p => (p.1, resolveNVal heap fuel p.2)))
    | none => .vnull

/-- Fuel that amply covers any resolvable chain of view references. -/
def resolveFuel (heap : List Sdo) (nv : NVal) : Nat :=
  heap.length + nvalSize nv + 1

/-- `isScalar` applied to an already-cached field value. -/
def isScalarN : NVal → Bool
  | .prim v => isScalar v
  | _ => false

/-- `isShallowSelectionSet` applied to an already-cached field value: a
stub data object or rebuilt record with at least one field.  (`prim`
can only carry a non-selection-set value there: scalars, raw arrays, or
the empty object, which the shallow check rejects.) -/
def isSelectionSetN (heap : List Sdo) : NVal → Bool
  | .prim v => isShallowSelectionSet v
  | .narr _ => false
  | .nobj fs => !fs.isEmpty
  | .ref vid =>
    match heap.get? vid with
    | some sdo => !sdo.isEmpty
    | none => false

/-- `isNormalizeable` applied to a rebuilt selection set (the source
applies it to the freshly built `cachedSelectionSet` object): both key
names must be present. -/
def isNormalizeableCached (cached : Sdo) : Bool :=
  cached.any (fun p => p.1 == "__typename") && cached.any (fun p => p.1 == "__id")

/-- The body of the listener loop in
`BackingDataObject.updateListeners`: `sdo[fieldName] = value` for the
view at heap index `vid`. -/
def writeField (fieldName : String) (value : Value) (h : List Sdo) (vid : Nat) : List Sdo :=
  match h.get? vid with
  | some sdo => h.set vid (setA sdo fieldName (.prim value))
  | none => h

/-- `BackingDataObject.updateListeners` (keyed by the record's cache
key): write the new value onto the field of every view registered as a
listener of `fieldName`.  Returns the state only; the listener count the
source returns is used by no caller. -/
def updateListeners (c : Cache) (key fieldName : String) (value : Value) : Cache :=
  match lookupA c.bdoCache key with
  | none => c
  | some bdo =>
    match lookupA bdo.listeners fieldName with
    | none => c
    | some vids =>
      { c with heap := vids.foldl (writeField fieldName value) c.heap }

/-- `BackingDataObject.updateFromServer`: store the raw server value
and notify the field's listeners. -/
def updateFromServer (c : Cache) (key fieldName : String) (value : Value) : Cache :=
  match lookupA c.bdoCache key with
  | none => c
  | some bdo =>
    let newBdo := { bdo with serverValues := setA bdo.serverValues fieldName value }
    let c1 : Cache := { c with bdoCache := setA c.bdoCache key newBdo }
    updateListeners c1 key fieldName value

/-- `Cache.createBdo`: a new backing record with *empty* server values
whose listener map registers the first view under every field name of
the original data. -/
def createBdo (c : Cache) (key : String) (data : List (String × Value)) (vid : Nat) : Cache :=
  let newBdo : BackingDataObject :=
    { typedKey := key
      serverValues := []
      listeners := data.foldl (fun L p => setA L p.1 [vid]) [] }
  { c with bdoCache := setA c.bdoCache key newBdo }

/-- One iteration of the `Cache.updateBdo` loop for the field
`(fieldName, value)`: scalar values and arrays that are not entirely
normalizable are pushed through `updateFromServer`; single selection
sets (normalizable or not) and arrays of normalizable elements are
skipped.  Afterwards the new view is added to the field's listener set;
if the record tracks no listener set for that field, the source throws
(`listeners.get(fieldName)` is `undefined`), modelled as `false`. -/
def updateBdoStep (c : Cache) (key fieldName : String) (value : Value) (vid : Nat) :
    Cache × Bool :=
  let c1 :=
    match value with
    | .varr xs =>
      if xs.all isScalar then updateFromServer c key fieldName value
      else if !(xs.all isNormalizeable) then updateFromServer c key fieldName value
      else c
    | _ =>
      if isScalar value then updateFromServer c key fieldName value
      else c
  match lookupA c1.bdoCache key with
  | none => (c1, false)
  | some bdo =>
    match lookupA bdo.listeners fieldName with
    | none => (c1, false)
    | some vids =>
      let newBdo := { bdo with listeners := setA bdo.listeners fieldName (addId vids vid) }
      let c2 : Cache := { c1 with bdoCache := setA c1.bdoCache key newBdo }
      (c2, true)

/-- `Cache.updateBdo`: fold the step over the entries of the original
data; a missing listener set aborts the pass (the thrown `TypeError`),
keeping all mutations made so far. -/
def updateBdo (c : Cache) (key : String) (data : List (String × Value)) (vid : Nat) :
    Cache × Bool :=
  match data with
  | [] => (c, true)
  | (f, v) :: rest =>
    let r := updateBdoStep c key f v vid
    if r.2 then updateBdo r.1 key rest vid else (r.1, false)

mutual

/-- `Cache.normalizeSelectionSet` (called bound, on `this`): enumerate
the node's entries (`Object.entries` throws on `null`/`undefined`,
modelled as `none`), rebuild the selection set field by field, then, if
the rebuilt record carries `__typename` and `__id`, allocate it on the
view heap and link it to its backing record (create or update),
returning a view reference; otherwise return the rebuilt record as
inert data.  Fuel is an embedding artifact: every recursive call
consumes one unit and exhaustion reports failure, so any fuel exceeding
the input size is equivalent. -/
def normalizeSelectionSet : Nat → Cache → Value → Cache × Option NVal
  | 0, c, _ => (c, none)
  | fuel + 1, c, selectionSet =>
    match entriesOf selectionSet with
    | none => (c, none)
    | some entries =>
      match normalizeFields fuel c entries with
      | (c1, none) => (c1, none)
      | (c1, some cached) =>
        if isNormalizeableCached cached then
          let tval := (lookupA cached "__typename").getD (.prim .undef)
          let idval := (lookupA cached "__id").getD (.prim .undef)
          let key := bdoCacheKey
            (jsToString (resolveNVal c1.heap (resolveFuel c1.heap tval) tval))
            (resolveNVal c1.heap (resolveFuel c1.heap idval) idval)
          let vid := c1.heap.length
          let c2 : Cache := { c1 with heap := c1.heap ++ [cached] }
          match lookupA c2.bdoCache key with
          | some _ =>
            match updateBdo c2 key entries vid with
            | (c3, true) => (c3, some (.ref vid))
            | (c3, false) => (c3, none)
          | none => (createBdo c2 key entries vid, some (.ref vid))
        else (c1, some (.nobj cached))
termination_by structural fuel _ _ => fuel

/-- The field loop of `normalizeSelectionSet`: arrays map `cacheField`
over their elements and, when the cached elements are neither all
scalars nor all selection sets, fall back to storing the original array
unmodified; other values go through `cacheField` directly. -/
def normalizeFields : Nat → Cache → List (String × Value) → Cache × Option (List (String × NVal))
  | 0, c, _ => (c, none)
  | _ + 1, c, [] => (c, some [])
  | fuel + 1, c, (field, value) :: rest =>
    match value with
    | .varr xs =>
      match cacheFieldList fuel c xs with
      | (c1, none) => (c1, none)
      | (c1, some cachedField) =>
        let nv :=
          if cachedField.all isScalarN || cachedField.all (isSelectionSetN c1.heap)
          then NVal.narr cachedField
          else NVal.prim value
        match normalizeFields fuel c1 rest with
        | (c2, none) => (c2, none)
        | (c2, some cachedRest) => (c2, some ((field, nv) :: cachedRest))
    | _ =>
      match cacheField fuel c value with
      | (c1, none) => (c1, none)
      | (c1, some nv) =>
        match normalizeFields fuel c1 rest with
        | (c2, none) => (c2, none)
        | (c2, some cachedRest) => (c2, some ((field, nv) :: cachedRest))
termination_by structural fuel _ _ => fuel

/-- `value.map(this.cacheField)` over the elements of an array field.
`cacheField` is passed to `map` unbound, so inside the strict-mode
callback `this` is `undefined`: a selection-set element reaches
`this.normalizeSelectionSet` and throws a `TypeError` (modelled as
`none`); every other element is returned unchanged and the cache is
never touched. -/
def cacheFieldList : Nat → Cache → List Value → Cache × Option (List NVal)
  | 0, c, _ => (c, none)
  | _ + 1, c, [] => (c, some [])
  | fuel + 1, c, x :: rest =>
    if isShallowSelectionSet x then (c, none)
    else
      match cacheFieldList fuel c rest with
      | (c2, none) => (c2, none)
      | (c2, some nvs) => (c2, some (.prim x :: nvs))
termination_by structural fuel _ _ => fuel

/-- `Cache.cacheField`: recurse into selection sets, pass scalars (and
any other non-selection-set value) through unchanged. -/
def cacheField : Nat → Cache → Value → Cache × Option NVal
  | 0, c, _ => (c, none)
  | fuel + 1, c, value =>
    if isShallowSelectionSet value then normalizeSelectionSet fuel c value
    else (c, some (.prim value))
termination_by structural fuel _ _ => fuel

end

/-- `selectionSet.map(this.normalizeSelectionSet)` over a top-level
array.  The method is passed to `map` unbound, so inside the
strict-mode callback `this` is `undefined`: an element with at least
one own entry reaches a `this.` access on its first field and throws a
`TypeError` (modelled as `none`); a `null`/`undefined` element throws
inside `Object.entries`; an element without entries is rebuilt as an
empty record without touching the cache. -/
def mapNormalize : Nat → Cache → List Value → Cache × Option (List NVal)
  | 0, c, _ => (c, none)
  | _ + 1, c, [] => (c, some [])
  | fuel + 1, c, x :: rest =>
    match entriesOf x with
    | none => (c, none)
    | some [] =>
      match mapNormalize fuel c rest with
      | (c2, none) => (c2, none)
      | (c2, some nvs) => (c2, some (.nobj [] :: nvs))
    | some (_ :: _) => (c, none)
termination_by structural fuel _ _ => fuel

/-- The loop of `Cache.createSrt`: array-valued top-level fields map
the unbound `normalizeSelectionSet` over their elements, others are
normalized directly (bound call). -/
def createSrtFields : Nat → Cache → List (String × Value) → Cache × Option (List (String × NVal))
  | 0, c, _ => (c, none)
  | _ + 1, c, [] => (c, some [])
  | fuel + 1, c, (als, v) :: rest =>
    match v with
    | .varr xs =>
      match mapNormalize fuel c xs with
      | (c1, none) => (c1, none)
      | (c1, some nvs) =>
        match createSrtFields fuel c1 rest with
        | (c2, none) => (c2, none)
        | (c2, some srtRest) => (c2, some ((als, NVal.narr nvs) :: srtRest))
    | _ =>
      match normalizeSelectionSet fuel c v with
      | (c1, none) => (c1, none)
      | (c1, some nv) =>
        match createSrtFields fuel c1 rest with
        | (c2, none) => (c2, none)
        | (c2, some srtRest) => (c2, some ((als, nv) :: srtRest))
termination_by structural fuel _ _ => fuel

/-- `Cache.updateCache`, the entry point: compute the result-tree key
(`Object.entries(vars)` throws on `null`/`undefined` variables, before
anything is cached), normalize the data into a stub result tree
(`Object.entries(data)` likewise throws on null-ish data) and store it.
A thrown `TypeError` (or fuel exhaustion) leaves the result-tree cache
untouched while keeping every mutation made before the throw. -/
def updateCache (fuel : Nat) (c : Cache) (queryName : String) (vars : Value) (data : Value) :
    Cache × Bool :=
  match entriesOf vars with
  | none => (c, false)
  | some _ =>
    let key := srtCacheKey queryName vars
    match entriesOf data with
    | none => (c, false)
    | some flds =>
      match createSrtFields fuel c flds with
      | (c1, none) => (c1, false)
      | (c1, some srt) => ({ c1 with srtCache := setA c1.srtCache key srt }, true)

/-- One query result, as consumed by `updateCache`. -/
structure QueryCall where
  fuel : Nat
  queryName : String
  vars : Value
  data : Value

/-- Run a sequence of `updateCache` calls from a starting state. -/
def runCalls (c : Cache) (qs : List QueryCall) : Cache :=
  qs.foldl (fun st q => (updateCache q.fuel st q.queryName q.vars q.data).1) c

/-- The field-name list of the view at heap index `vid`, if any. -/
def viewKeys (c : Cache) (vid : Nat) : Option (List String) :=
  (c.heap.get? vid).map (fun sdo => sdo.map Prod.fst)

/-- True for the two JavaScript null-ish scalars. -/
def isNullish : Value → Bool
  | .vnull => true
  | .undef => true
  | _ => false

/-- Spec-side classifier, written from the spec's words for comparison
with the source's `isNormalizeable`: true iff the value is a selection
set carrying a type-name field and an identifier field that are *both
non-null* (a node with a null or absent identifier "degrades to inert
nested data"). -/
def isNormalizableSpec (v : Value) : Bool :=
  isShallowSelectionSet v &&
    (match lookupA ((entriesOf v).getD []) "__typename" with
     | some t => !isNullish t
     | none => false) &&
    (match lookupA ((entriesOf v).getD []) "__id" with
     | some i => !isNullish i
     | none => false)

/-- The rebuilt record of a flat (all-scalar) selection set: every
field passes through `cacheField` unchanged. -/
def primFields (fs : List (String × Value)) : Sdo :=
  fs.map (fun p => (p.1, NVal.prim p.2))

/-- The entity key a flat normalizable node ends up under: its
type-name string and raw identifier value fed to `bdoCacheKey`. -/
def entKey (fs : List (String × Value)) : String :=
  bdoCacheKey
    (match lookupA fs "__typename" with
     | some (.vstr t) => t
     | _ => "")
    ((lookupA fs "__id").getD .undef)

/-! ### Association-list lemmas -/

theorem lookupA_setA_self {β : Type} (l : List (String × β)) (k : String) (v : β) :
    lookupA (setA l k v) k = some v := by
  induction l with
  | nil => simp [setA, lookupA]
  | cons p t ih =>
    obtain ⟨k', v'⟩ := p
    by_cases h : k' = k
    · simp [setA, h, lookupA]
    · simp [setA, h, lookupA, ih]

theorem lookupA_setA_ne {β : Type} (l : List (String × β)) (k k' : String) (v : β)
    (h : k' ≠ k) : lookupA (setA l k v) k' = lookupA l k' := by
  induction l with
  | nil => simp [setA, lookupA, Ne.symm h]
  | cons p t ih =>
    obtain ⟨k0, v0⟩ := p
    by_cases h0 : k0 = k
    · subst h0
      simp [setA, lookupA, Ne.symm h]
    · simp [setA, h0, lookupA, ih]

theorem mem_setA {β : Type} {l : List (String × β)} {k : String} {v : β} {p : String × β}
    (h : p ∈ setA l k v) : p = (k, v) ∨ p ∈ l := by
  induction l with
  | nil =>
    simp [setA] at h
    exact Or.inl h
  | cons q t ih =>
    obtain ⟨k0, v0⟩ := q
    by_cases h0 : k0 = k
    · rw [setA, if_pos h0] at h
      rcases List.mem_cons.mp h with h | h
      · exact Or.inl h
      · exact Or.inr (List.mem_cons_of_mem _ h)
    · rw [setA, if_neg h0] at h
      rcases List.mem_cons.mp h with h | h
      · exact Or.inr (by simp [h])
      · rcases ih h with h' | h'
        · exact Or.inl h'
        · exact Or.inr (List.mem_cons_of_mem _ h')

theorem map_fst_setA_of_mem {β : Type} {l : List (String × β)} {k : String} (v : β)
    (h : k ∈ l.map Prod.fst) : (setA l k v).map Prod.fst = l.map Prod.fst := by
  induction l with
  | nil => simp at h
  | cons q t ih =>
    obtain ⟨k0, v0⟩ := q
    by_cases h0 : k0 = k
    · simp [setA, h0]
    · simp [setA, h0]
      simp [Ne.symm h0] at h
      exact ih (by simpa using h)

theorem length_setA_of_mem {β : Type} {l : List (String × β)} {k : String} (v : β)
    (h : k ∈ l.map Prod.fst) : (setA l k v).length = l.length := by
  have := map_fst_setA_of_mem (l := l) (k := k) v h
  have h1 : ((setA l k v).map Prod.fst).length = (l.map Prod.fst).length := by rw [this]
  simpa using h1

theorem lookupA_isSome_of_mem {β : Type} {l : List (String × β)} {k : String}
    (h : k ∈ l.map Prod.fst) : ∃ v, lookupA l k = some v := by
  induction l with
  | nil => simp at h
  | cons q t ih =>
    obtain ⟨k0, v0⟩ := q
    by_cases h0 : k0 = k
    · exact ⟨v0, by simp [lookupA, h0]⟩
    · simp [Ne.symm h0] at h
      obtain ⟨v, hv⟩ := ih (by simpa using h)
      exact ⟨v, by simp [lookupA, h0, hv]⟩

theorem mem_of_lookupA_eq_some {β : Type} {l : List (String × β)} {k : String} {v : β}
    (h : lookupA l k = some v) : (k, v) ∈ l := by
  induction l with
  | nil => simp [lookupA] at h
  | cons q t ih =>
    obtain ⟨k0, v0⟩ := q
    by_cases h0 : k0 = k
    · subst h0
      simp [lookupA] at h
      simp [h]
    · simp [lookupA, h0] at h
      exact List.mem_cons_of_mem _ (ih h)

theorem lookupA_eq_none_of_not_mem {β : Type} {l : List (String × β)} {k : String}
    (h : k ∉ l.map Prod.fst) : lookupA l k = none := by
  induction l with
  | nil => simp [lookupA]
  | cons q t ih =>
    obtain ⟨k0, v0⟩ := q
    simp at h
    push_neg at h
    simp [lookupA, Ne.symm h.1, ih (by simpa using h.2)]

theorem setA_of_not_mem {β : Type} {l : List (String × β)} {k : String} (v : β)
    (h : k ∉ l.map Prod.fst) : setA l k v = l ++ [(k, v)] := by
  induction l with
  | nil => simp [setA]
  | cons q t ih =>
    obtain ⟨k0, v0⟩ := q
    simp at h
    push_neg at h
    simp [setA, Ne.symm h.1, ih (by simpa using h.2)]

theorem setA_setA {β : Type} (l : List (String × β)) (k : String) (v : β) :
    setA (setA l k v) k v = setA l k v := by
  induction l with
  | nil => simp [setA]
  | cons q t ih =>
    obtain ⟨k0, v0⟩ := q
    by_cases h0 : k0 = k
    · simp [setA, h0]
    · simp [setA, h0, ih]

/-! ### Heap lemmas -/

theorem get?_set_self {α : Type} (l : List α) (i : Nat) (a : α) (h : i < l.length) :
    (l.set i a).get? i = some a := by
  induction l generalizing i with
  | nil => simp at h
  | cons x t ih =>
    cases i with
    | zero => simp
    | succ j =>
      simp only [List.set]
      simpa using ih j (by simpa using h)

theorem get?_set_ne {α : Type} (l : List α) (i j : Nat) (a : α) (h : i ≠ j) :
    (l.set i a).get? j = l.get? j := by
  induction l generalizing i j with
  | nil => simp
  | cons x t ih =>
    cases i with
    | zero =>
      cases j with
      | zero => exact absurd rfl h
      | succ j' => simp
    | succ i' =>
      cases j with
      | zero => simp
      | succ j' =>
        simp only [List.set]
        simpa using ih i' j' (fun hh => h (by simp [hh]))

theorem get?_append_left {α : Type} (l l' : List α) (i : Nat) (h : i < l.length) :
    (l ++ l').get? i = l.get? i := by
  induction l generalizing i with
  | nil => simp at h
  | cons x t ih =>
    cases i with
    | zero => simp
    | succ j => simpa using ih j (by simpa using h)

theorem get?_append_last {α : Type} (l : List α) (x : α) :
    (l ++ [x]).get? l.length = some x := by
  induction l with
  | nil => simp
  | cons y t ih => simp [ih]

/-! ### The listener-registry invariant and heap-shape preservation -/

/-- The listener registry is well formed: every heap index registered
as a listener of a field denotes an allocated view that selected that
field (its record has the field name among its keys). -/
def ListenersWF (c : Cache) : Prop :=
  ∀ kb ∈ c.bdoCache, ∀ fl ∈ kb.2.listeners, ∀ vid ∈ fl.2,
    ∃ sdo, c.heap.get? vid = some sdo ∧ fl.1 ∈ sdo.map Prod.fst

/-- The heap only evolves by in-place field updates of existing views
and allocation of new ones: every already-allocated view keeps exactly
its field names. -/
def heapPres (c c' : Cache) : Prop :=
  c.heap.length ≤ c'.heap.length ∧
  ∀ vid sdo, c.heap.get? vid = some sdo →
    ∃ sdo', c'.heap.get? vid = some sdo' ∧ sdo'.map Prod.fst = sdo.map Prod.fst

theorem heapPres_refl (c : Cache) : heapPres c c :=
  ⟨le_refl _, fun _ sdo h => ⟨sdo, h, rfl⟩⟩

theorem heapPres_trans {a b c : Cache} (h1 : heapPres a b) (h2 : heapPres b c) :
    heapPres a c := by
  refine ⟨le_trans h1.1 h2.1, fun vid sdo h => ?_⟩
  obtain ⟨sdo1, hb, hk1⟩ := h1.2 vid sdo h
  obtain ⟨sdo2, hc, hk2⟩ := h2.2 vid sdo1 hb
  exact ⟨sdo2, hc, hk2.trans hk1⟩

/-- Changing only the two cache maps preserves the heap shape. -/
theorem heapPres_of_heap_eq {c c' : Cache} (h : c'.heap = c.heap) : heapPres c c' := by
  refine ⟨by rw [h], fun vid sdo hs => ⟨sdo, by rw [h]; exact hs, rfl⟩⟩

/-- Allocation extends the heap on the right. -/
theorem heapPres_alloc (c : Cache) (sdo : Sdo) :
    heapPres c { c with heap := c.heap ++ [sdo] } := by
  constructor
  · simp
  · intro vid sdo0 h
    have hlt : vid < c.heap.length := by
      by_contra hge
      rw [List.get?_eq_none.mpr (by omega)] at h
      exact Option.noConfusion h
    exact ⟨sdo0, by rw [get?_append_left _ _ _ hlt]; exact h, rfl⟩

/-! ### Listener-write lemmas -/

theorem length_writeField (f : String) (v : Value) (h : List Sdo) (vid : Nat) :
    (writeField f v h vid).length = h.length := by
  unfold writeField
  split
  · simp
  · rfl

theorem length_foldl_writeField (f : String) (v : Value) (vids : List Nat) (h : List Sdo) :
    (vids.foldl (writeField f v) h).length = h.length := by
  induction vids generalizing h with
  | nil => rfl
  | cons w t ih => simp [List.foldl_cons, ih, length_writeField]

/-- A write to a view that already has the field keeps every view's
field-name list. -/
theorem keys_foldl_writeField (f : String) (v : Value) (vids : List Nat) (h : List Sdo)
    (hw : ∀ w ∈ vids, ∀ sdoW, h.get? w = some sdoW → f ∈ sdoW.map Prod.fst) :
    ∀ vid sdo, h.get? vid = some sdo →
      ∃ sdo', (vids.foldl (writeField f v) h).get? vid = some sdo' ∧
        sdo'.map Prod.fst = sdo.map Prod.fst := by
  induction vids generalizing h with
  | nil => exact fun vid sdo hs => ⟨sdo, hs, rfl⟩
  | cons w t ih =>
    intro vid sdo hs
    simp only [List.foldl_cons]
    have hkeys1 : ∀ vid0 sdo0, h.get? vid0 = some sdo0 →
        ∃ sdo1, (writeField f v h w).get? vid0 = some sdo1 ∧
          sdo1.map Prod.fst = sdo0.map Prod.fst := by
      intro vid0 sdo0 hs0
      unfold writeField
      split
      · next sdoW hW =>
        by_cases hvw : w = vid0
        · subst hvw
          rw [hW] at hs0
          injection hs0 with hs0
          subst hs0
          refine ⟨setA sdoW f (.prim v), ?_, ?_⟩
          · exact get?_set_self _ _ _ (by
              have := List.get?_eq_some.mp hW
              exact this.1)
          · exact map_fst_setA_of_mem _ (hw w (by simp) sdoW hW)
        · exact ⟨sdo0, by rw [get?_set_ne _ _ _ _ hvw]; exact hs0, rfl⟩
      · exact ⟨sdo0, hs0, rfl⟩
    obtain ⟨sdo1, hs1, hk1⟩ := hkeys1 vid sdo hs
    have hw' : ∀ w' ∈ t, ∀ sdoW, (writeField f v h w).get? w' = some sdoW →
        f ∈ sdoW.map Prod.fst := by
      intro w' hw' sdoW hsW
      unfold writeField at hsW
      revert hsW
      split
      · next sdoW0 hW0 =>
        intro hsW
        by_cases hvw : w = w'
        · subst hvw
          rw [get?_set_self _ _ _ (List.get?_eq_some.mp hW0).1] at hsW
          injection hsW with hsW
          subst hsW
          rw [map_fst_setA_of_mem _ (hw w (by simp) sdoW0 hW0)]
          exact hw w (by simp) sdoW0 hW0
        · rw [get?_set_ne _ _ _ _ hvw] at hsW
          exact hw w' (by simp [hw']) sdoW hsW
      · intro hsW
        exact hw w' (by simp [hw']) sdoW hsW
    obtain ⟨sdo', hs', hk'⟩ := ih _ hw' vid sdo1 hs1
    exact ⟨sdo', hs', hk'.trans hk1⟩

/-- Views not registered for the written field are untouched. -/
theorem get?_foldl_writeField_not_mem (f : String) (v : Value) (vids : List Nat)
    (h : List Sdo) (vid : Nat) (hv : vid ∉ vids) :
    (vids.foldl (writeField f v) h).get? vid = h.get? vid := by
  induction vids generalizing h with
  | nil => rfl
  | cons w t ih =>
    simp only [List.foldl_cons]
    have hne : w ≠ vid := fun hh => hv (by simp [hh])
    have : (writeField f v h w).get? vid = h.get? vid := by
      unfold writeField
      split
      · exact get?_set_ne _ _ _ _ hne
      · rfl
    rw [ih _ (fun hh => hv (by simp [hh])), this]

/-- Every registered view receives the written value: afterwards its
field holds exactly the raw server value. -/
theorem get?_foldl_writeField_mem (f : String) (v : Value) (vids : List Nat)
    (h : List Sdo) (vid : Nat) (sdo : Sdo) (hv : vid ∈ vids) (hs : h.get? vid = some sdo) :
    (vids.foldl (writeField f v) h).get? vid = some (setA sdo f (.prim v)) := by
  induction vids generalizing h sdo with
  | nil => simp at hv
  | cons w t ih =>
    simp only [List.foldl_cons]
    by_cases hvw : w = vid
    · subst hvw
      have hwf : (writeField f v h w).get? w = some (setA sdo f (.prim v)) := by
        unfold writeField
        rw [hs]
        exact get?_set_self _ _ _ (List.get?_eq_some.mp hs).1
      by_cases hmem : w ∈ t
      · have := ih _ _ hmem hwf
        rwa [setA_setA] at this
      · rw [get?_foldl_writeField_not_mem _ _ _ _ _ hmem, hwf]
    · have hget : (writeField f v h w).get? vid = some sdo := by
        unfold writeField
        split
        · rw [get?_set_ne _ _ _ _ hvw]; exact hs
        · exact hs
      have hmem : vid ∈ t := by
        rcases List.mem_cons.mp hv with hh | hh
        · exact absurd hh.symm hvw
        · exact hh
      exact ih _ _ hmem hget

/-! ### Preservation through the backing-record operations -/

theorem updateListeners_bdoCache (c : Cache) (key f : String) (v : Value) :
    (updateListeners c key f v).bdoCache = c.bdoCache := by
  unfold updateListeners
  split
  · rfl
  · split
    · rfl
    · rfl

theorem updateListeners_srtCache (c : Cache) (key f : String) (v : Value) :
    (updateListeners c key f v).srtCache = c.srtCache := by
  unfold updateListeners
  split
  · rfl
  · split
    · rfl
    · rfl

theorem updateListeners_pres {c : Cache} (key f : String) (v : Value)
    (hwf : ListenersWF c) :
    heapPres c (updateListeners c key f v) ∧
      (updateListeners c key f v).heap.length = c.heap.length := by
  unfold updateListeners
  split
  · exact ⟨heapPres_refl c, rfl⟩
  · next bdo hbdo =>
    split
    · exact ⟨heapPres_refl c, rfl⟩
    · next vids hvids =>
      have hw : ∀ w ∈ vids, ∀ sdoW, c.heap.get? w = some sdoW → f ∈ sdoW.map Prod.fst := by
        intro w hwmem sdoW hsW
        obtain ⟨sdo0, hs0, hk0⟩ :=
          hwf (key, bdo) (mem_of_lookupA_eq_some hbdo) (f, vids)
            (mem_of_lookupA_eq_some hvids) w hwmem
        rw [hsW] at hs0
        injection hs0 with hs0
        subst hs0
        exact hk0
      constructor
      · constructor
        · simp [length_foldl_writeField]
        · intro vid sdo hs
          exact keys_foldl_writeField f v vids c.heap hw vid sdo hs
      · simp [length_foldl_writeField]

theorem updateListeners_wf {c : Cache} (key f : String) (v : Value)
    (hwf : ListenersWF c) : ListenersWF (updateListeners c key f v) := by
  intro kb hkb fl hfl vid hvid
  have hkb' : kb ∈ c.bdoCache := by rwa [updateListeners_bdoCache] at hkb
  obtain ⟨sdo, hs, hk⟩ := hwf kb hkb' fl hfl vid hvid
  obtain ⟨sdo', hs', hk'⟩ := (updateListeners_pres key f v hwf).1.2 vid sdo hs
  exact ⟨sdo', hs', by rw [hk']; exact hk⟩

theorem updateFromServer_listeners {c : Cache} (key f : String) (v : Value) :
    ∀ kb ∈ (updateFromServer c key f v).bdoCache,
      ∃ kb0, kb0 ∈ c.bdoCache ∧ kb.1 = kb0.1 ∧ kb.2.listeners = kb0.2.listeners := by
  unfold updateFromServer
  split
  · exact fun kb hkb => ⟨kb, hkb, rfl, rfl⟩
  · next bdo hbdo =>
    intro kb hkb
    rw [updateListeners_bdoCache] at hkb
    rcases mem_setA hkb with h | h
    · exact ⟨(key, bdo), mem_of_lookupA_eq_some hbdo, by simp [h], by simp [h]⟩
    · exact ⟨kb, h, rfl, rfl⟩

theorem updateFromServer_pres {c : Cache} (key f : String) (v : Value)
    (hwf : ListenersWF c) :
    heapPres c (updateFromServer c key f v) ∧
      (updateFromServer c key f v).heap.length = c.heap.length := by
  unfold updateFromServer
  split
  · exact ⟨heapPres_refl c, rfl⟩
  · next bdo hbdo =>
    have hwf1 : ListenersWF
        { c with bdoCache := setA c.bdoCache key { bdo with serverValues := setA bdo.serverValues f v } } := by
      intro kb hkb fl hfl vid hvid
      rcases mem_setA hkb with h | h
      · subst h
        exact hwf (key, bdo) (mem_of_lookupA_eq_some hbdo) fl hfl vid hvid
      · exact hwf kb h fl hfl vid hvid
    have := updateListeners_pres key f v hwf1
    exact ⟨⟨by simpa using this.1.1, by simpa using this.1.2⟩, by simpa using this.2⟩

theorem updateFromServer_wf {c : Cache} (key f : String) (v : Value)
    (hwf : ListenersWF c) : ListenersWF (updateFromServer c key f v) := by
  unfold updateFromServer
  split
  · exact hwf
  · next bdo hbdo =>
    apply updateListeners_wf
    intro kb hkb fl hfl vid hvid
    rcases mem_setA hkb with h | h
    · subst h
      exact hwf (key, bdo) (mem_of_lookupA_eq_some hbdo) fl hfl vid hvid
    · exact hwf kb h fl hfl vid hvid

/-- The membership fact `updateBdoStep` needs about the new view,
stated against an arbitrary earlier state and transported along
`heapPres`. -/
def viewHasField (c : Cache) (vid : Nat) (f : String) : Prop :=
  ∃ sdo, c.heap.get? vid = some sdo ∧ f ∈ sdo.map Prod.fst

theorem viewHasField_mono {c c' : Cache} {vid : Nat} {f : String}
    (hp : heapPres c c') (h : viewHasField c vid f) : viewHasField c' vid f := by
  obtain ⟨sdo, hs, hk⟩ := h
  obtain ⟨sdo', hs', hk'⟩ := hp.2 vid sdo hs
  exact ⟨sdo', hs', by rw [hk']; exact hk⟩

theorem updateBdoStep_pres {c : Cache} (key f : String) (v : Value) (vid : Nat)
    (hwf : ListenersWF c) (hvid : viewHasField c vid f) :
    ListenersWF (updateBdoStep c key f v vid).1 ∧
      heapPres c (updateBdoStep c key f v vid).1 ∧
      (updateBdoStep c key f v vid).1.heap.length = c.heap.length := by
  unfold updateBdoStep
  have hc1 : ∀ c1 : Cache, ListenersWF c1 → heapPres c c1 → c1.heap.length = c.heap.length →
      ListenersWF (match lookupA c1.bdoCache key with
        | none => (c1, false)
        | some bdo =>
          match lookupA bdo.listeners f with
          | none => (c1, false)
          | some vids =>
            ({ c1 with bdoCache := setA c1.bdoCache key { bdo with listeners := setA bdo.listeners f (addId vids vid) } }, true)).1 ∧
      heapPres c (match lookupA c1.bdoCache key with
        | none => (c1, false)
        | some bdo =>
          match lookupA bdo.listeners f with
          | none => (c1, false)
          | some vids =>
            ({ c1 with bdoCache := setA c1.bdoCache key { bdo with listeners := setA bdo.listeners f (addId vids vid) } }, true)).1 ∧
      (match lookupA c1.bdoCache key with
        | none => (c1, false)
        | some bdo =>
          match lookupA bdo.listeners f with
          | none => (c1, false)
          | some vids =>
            ({ c1 with bdoCache := setA c1.bdoCache key { bdo with listeners := setA bdo.listeners f (addId vids vid) } }, true)).1.heap.length = c.heap.length := by
    intro c1 hwf1 hp1 hlen1
    split
    · exact ⟨hwf1, hp1, hlen1⟩
    · next bdo hbdo =>
      split
      · exact ⟨hwf1, hp1, hlen1⟩
      · next vids hvids =>
        refine ⟨?_, ⟨hp1.1, fun vid0 sdo0 hs0 => hp1.2 vid0 sdo0 hs0⟩, hlen1⟩
        intro kb hkb fl hfl vid0 hvid0
        rcases mem_setA hkb with h | h
        · subst h
          rcases mem_setA hfl with h' | h'
          · subst h'
            simp only at hvid0
            unfold addId at hvid0
            have hmem : vid0 ∈ vids ∨ vid0 = vid := by
              by_cases hin : vid ∈ vids
              · rw [if_pos hin] at hvid0
                exact Or.inl hvid0
              · rw [if_neg hin] at hvid0
                rcases List.mem_append.mp hvid0 with hh | hh
                · exact Or.inl hh
                · exact Or.inr (by simpa using hh)
            rcases hmem with hh | hh
            · exact hwf1 (key, bdo) (mem_of_lookupA_eq_some hbdo) (f, vids)
                (mem_of_lookupA_eq_some hvids) vid0 hh
            · subst hh
              exact viewHasField_mono hp1 hvid
          · exact hwf1 (key, bdo) (mem_of_lookupA_eq_some hbdo) fl h' vid0 hvid0
        · exact hwf1 kb h fl hfl vid0 hvid0
  split
  · next xs =>
    split
    · exact hc1 _ (updateFromServer_wf _ _ _ hwf) (updateFromServer_pres _ _ _ hwf).1
        (updateFromServer_pres _ _ _ hwf).2
    · split
      · exact hc1 _ (updateFromServer_wf _ _ _ hwf) (updateFromServer_pres _ _ _ hwf).1
          (updateFromServer_pres _ _ _ hwf).2
      · exact hc1 _ hwf (heapPres_refl c) rfl
  · split
    · exact hc1 _ (updateFromServer_wf _ _ _ hwf) (updateFromServer_pres _ _ _ hwf).1
        (updateFromServer_pres _ _ _ hwf).2
    · exact hc1 _ hwf (heapPres_refl c) rfl

theorem updateBdo_pres {c : Cache} (key : String) (data : List (String × Value)) (vid : Nat)
    (hwf : ListenersWF c) (hvid : ∀ fv ∈ data, viewHasField c vid fv.1) :
    ListenersWF (updateBdo c key data vid).1 ∧
      heapPres c (updateBdo c key data vid).1 ∧
      (updateBdo c key data vid).1.heap.length = c.heap.length := by
  induction data generalizing c with
  | nil => exact ⟨hwf, heapPres_refl c, rfl⟩
  | cons fv rest ih =>
    obtain ⟨f, v⟩ := fv
    rw [updateBdo]
    have hstep := updateBdoStep_pres key f v vid hwf (hvid (f, v) (by simp))
    by_cases hok : (updateBdoStep c key f v vid).2
    · rw [if_pos hok]
      have hrest : ∀ fv ∈ rest, viewHasField (updateBdoStep c key f v vid).1 vid fv.1 :=
        fun fv hfv => viewHasField_mono hstep.2.1 (hvid fv (by simp [hfv]))
      obtain ⟨hw2, hp2, hl2⟩ := ih hstep.1 hrest
      exact ⟨hw2, heapPres_trans hstep.2.1 hp2, by rw [hl2, hstep.2.2]⟩
    · rw [if_neg hok]
      exact hstep

/-- Entries of the listener map `createBdo` builds. -/
theorem mem_createBdo_listeners {vid : Nat} :
    ∀ (data : List (String × Value)) (L0 : List (String × List Nat)) fl,
      fl ∈ data.foldl (fun L p => setA L p.1 [vid]) L0 →
      fl ∈ L0 ∨ (fl.2 = [vid] ∧ fl.1 ∈ data.map Prod.fst) := by
  intro data
  induction data with
  | nil => exact fun L0 fl h => Or.inl h
  | cons p rest ih =>
    intro L0 fl h
    rw [List.foldl_cons] at h
    rcases ih _ fl h with h' | h'
    · rcases mem_setA h' with h'' | h''
      · exact Or.inr ⟨by simp [h''], by simp [h'']⟩
      · exact Or.inl h''
    · exact Or.inr ⟨h'.1, by simp [h'.2]⟩

theorem createBdo_wf {c : Cache} (key : String) (data : List (String × Value)) (vid : Nat)
    (hwf : ListenersWF c) (hvid : ∀ fv ∈ data, viewHasField c vid fv.1) :
    ListenersWF (createBdo c key data vid) := by
  intro kb hkb fl hfl vid0 hvid0
  unfold createBdo at hkb
  rcases mem_setA hkb with h | h
  · subst h
    simp only at hfl
    rcases mem_createBdo_listeners data [] fl hfl with h' | h'
    · simp at h'
    · have : vid0 = vid := by
        have := h'.1
        rw [this] at hvid0
        simpa using hvid0
      subst this
      obtain ⟨f0, hf0mem⟩ := List.mem_map.mp h'.2
      have := hvid f0 hf0mem.1
      rw [hf0mem.2] at this
      exact this
  · exact hwf kb h fl hfl vid0 hvid0

theorem createBdo_heap (c : Cache) (key : String) (data : List (String × Value)) (vid : Nat) :
    (createBdo c key data vid).heap = c.heap := rfl

/-- The rebuilt selection set has exactly the field names of the
original, in order. -/
theorem normalizeFields_keys : ∀ fuel c fs c' cached,
    normalizeFields fuel c fs = (c', some cached) →
    cached.map Prod.fst = fs.map Prod.fst := by
  intro fuel
  induction fuel with
  | zero =>
    intro c fs c' cached h
    rw [normalizeFields] at h
    injection h with h1 h2
    exact Option.noConfusion h2
  | succ fuel ih =>
    intro c fs c' cached h
    cases fs with
    | nil =>
      rw [normalizeFields] at h
      injection h with h1 h2
      injection h2 with h2
      simp [← h2]
    | cons p rest =>
      obtain ⟨f, v⟩ := p
      cases v
      case varr xs =>
        rw [normalizeFields] at h
        rcases h1 : cacheFieldList fuel c xs with ⟨c1, o1⟩
        rw [h1] at h
        cases o1 with
        | none =>
          injection h with ha hb
          exact Option.noConfusion hb
        | some cachedField =>
          simp only at h
          rcases h2 : normalizeFields fuel c1 rest with ⟨c2, o2⟩
          rw [h2] at h
          cases o2 with
          | none =>
            injection h with ha hb
            exact Option.noConfusion hb
          | some cachedRest =>
            injection h with ha hb
            injection hb with hb
            rw [← hb]
            simpa using ih _ _ _ _ h2
      all_goals
        simp only [normalizeFields] at h
        rcases h1 : cacheField fuel c _ with ⟨c1, o1⟩
        rw [h1] at h
        cases o1 with
        | none =>
          injection h with ha hb
          exact Option.noConfusion hb
        | some nv =>
          simp only at h
          rcases h2 : normalizeFields fuel c1 rest with ⟨c2, o2⟩
          rw [h2] at h
          cases o2 with
          | none =>
            injection h with ha hb
            exact Option.noConfusion hb
          | some cachedRest =>
            injection h with ha hb
            injection hb with hb
            rw [← hb]
            simpa using ih _ _ _ _ h2

theorem wf_alloc {c : Cache} (sdo : Sdo) (hwf : ListenersWF c) :
    ListenersWF { c with heap := c.heap ++ [sdo] } := by
  intro kb hkb fl hfl vid hvid
  obtain ⟨sdo0, hs0, hk0⟩ := hwf kb hkb fl hfl vid hvid
  have hlt : vid < c.heap.length := (List.get?_eq_some.mp hs0).1
  refine ⟨sdo0, ?_, hk0⟩
  show (c.heap ++ [sdo]).get? vid = some sdo0
  rw [get?_append_left _ _ _ hlt]
  exact hs0

/-- The unbound `cacheField` map never touches the cache state: scalar
elements are passed through, a selection-set element throws before any
`this.` method could run. -/
theorem cacheFieldList_state : ∀ (fuel : Nat) (c : Cache) (xs : List Value),
    (cacheFieldList fuel c xs).1 = c := by
  intro fuel
  induction fuel with
  | zero =>
    intro c xs
    rw [cacheFieldList]
  | succ fuel ih =>
    intro c xs
    cases xs with
    | nil => rw [cacheFieldList]
    | cons x rest =>
      rw [cacheFieldList]
      by_cases hss : isShallowSelectionSet x
      · rw [if_pos hss]
      · rw [if_neg hss]
        rcases h2 : cacheFieldList fuel c rest with ⟨c2, o2⟩
        have := ih c rest
        rw [h2] at this
        cases o2 with
        | none => exact this
        | some nvs => exact this

/-- The unbound `normalizeSelectionSet` map never touches the cache
state: every element either throws before a `this.` access or is an
entry-less value rebuilt as an empty record. -/
theorem mapNormalize_state : ∀ (fuel : Nat) (c : Cache) (xs : List Value),
    (mapNormalize fuel c xs).1 = c := by
  intro fuel
  induction fuel with
  | zero =>
    intro c xs
    rw [mapNormalize]
  | succ fuel ih =>
    intro c xs
    cases xs with
    | nil => rw [mapNormalize]
    | cons x rest =>
      rw [mapNormalize]
      rcases hent : entriesOf x with _ | es
      · rfl
      · cases es with
        | nil =>
          simp only
          rcases h2 : mapNormalize fuel c rest with ⟨c2, o2⟩
          have := ih c rest
          rw [h2] at this
          cases o2 with
          | none => exact this
          | some nvs => exact this
        | cons e es' => rfl

/-- Every step of the normalization pass keeps the listener registry
well formed and only evolves the heap by in-place updates of fields the
views already have, plus fresh allocations. -/
theorem norm_pres : ∀ fuel,
    (∀ c ss, ListenersWF c →
      ListenersWF (normalizeSelectionSet fuel c ss).1 ∧
        heapPres c (normalizeSelectionSet fuel c ss).1) ∧
    (∀ c fs, ListenersWF c →
      ListenersWF (normalizeFields fuel c fs).1 ∧
        heapPres c (normalizeFields fuel c fs).1) ∧
    (∀ c xs, ListenersWF c →
      ListenersWF (cacheFieldList fuel c xs).1 ∧
        heapPres c (cacheFieldList fuel c xs).1) ∧
    (∀ c v, ListenersWF c →
      ListenersWF (cacheField fuel c v).1 ∧ heapPres c (cacheField fuel c v).1) := by
  intro fuel
  induction fuel with
  | zero =>
    refine ⟨?_, ?_, ?_, ?_⟩
    · intro c ss hwf
      rw [normalizeSelectionSet]
      exact ⟨hwf, heapPres_refl c⟩
    · intro c fs hwf
      rw [normalizeFields]
      exact ⟨hwf, heapPres_refl c⟩
    · intro c xs hwf
      rw [cacheFieldList]
      exact ⟨hwf, heapPres_refl c⟩
    · intro c v hwf
      rw [cacheField]
      exact ⟨hwf, heapPres_refl c⟩
  | succ fuel ih =>
    obtain ⟨ihSS, ihNF, ihCL, ihCF⟩ := ih
    have cfCase : ∀ c v, ListenersWF c →
        ListenersWF (cacheField (fuel + 1) c v).1 ∧
          heapPres c (cacheField (fuel + 1) c v).1 := by
      intro c v hwf
      rw [cacheField]
      by_cases hss : isShallowSelectionSet v
      · rw [if_pos hss]
        exact ihSS c v hwf
      · rw [if_neg hss]
        exact ⟨hwf, heapPres_refl c⟩
    have clCase : ∀ c xs, ListenersWF c →
        ListenersWF (cacheFieldList (fuel + 1) c xs).1 ∧
          heapPres c (cacheFieldList (fuel + 1) c xs).1 := by
      intro c xs hwf
      rw [cacheFieldList_state]
      exact ⟨hwf, heapPres_refl c⟩
    have nfCase : ∀ c fs, ListenersWF c →
        ListenersWF (normalizeFields (fuel + 1) c fs).1 ∧
          heapPres c (normalizeFields (fuel + 1) c fs).1 := by
      intro c fs hwf
      cases fs with
      | nil =>
        rw [normalizeFields]
        exact ⟨hwf, heapPres_refl c⟩
      | cons p rest =>
        obtain ⟨f, v⟩ := p
        rcases h1 : cacheField fuel c v with ⟨c1, o1⟩
        have hcf := ihCF c v hwf
        rw [h1] at hcf
        cases v
        case varr xs =>
          rw [normalizeFields]
          rcases hl1 : cacheFieldList fuel c xs with ⟨d1, p1⟩
          have hd1 : d1 = c := by
            have := cacheFieldList_state fuel c xs
            rw [hl1] at this
            exact this
          subst hd1
          cases p1 with
          | none => exact ⟨hwf, heapPres_refl d1⟩
          | some cachedField =>
            simp only
            rcases h2 : normalizeFields fuel d1 rest with ⟨c2, o2⟩
            have hnf := ihNF d1 rest hwf
            rw [h2] at hnf
            cases o2 with
            | none => exact hnf
            | some cachedRest => exact hnf
        all_goals
          simp only [normalizeFields, h1]
          cases o1 with
          | none => exact hcf
          | some nv =>
            simp only
            rcases h2 : normalizeFields fuel c1 rest with ⟨c2, o2⟩
            have hnf := ihNF c1 rest hcf.1
            rw [h2] at hnf
            cases o2 with
            | none => exact ⟨hnf.1, heapPres_trans hcf.2 hnf.2⟩
            | some cachedRest => exact ⟨hnf.1, heapPres_trans hcf.2 hnf.2⟩
    refine ⟨?_, nfCase, clCase, cfCase⟩
    intro c ss hwf
    rw [normalizeSelectionSet]
    rcases hent : entriesOf ss with _ | entries
    · exact ⟨hwf, heapPres_refl c⟩
    · simp only
      rcases h1 : normalizeFields fuel c entries with ⟨c1, o1⟩
      have hnf := ihNF c entries hwf
      rw [h1] at hnf
      cases o1 with
      | none => exact hnf
      | some cached =>
        simp only
        by_cases hnorm : isNormalizeableCached cached
        · rw [if_pos hnorm]
          have hkeys := normalizeFields_keys fuel c entries c1 cached h1
          have hwf2 : ListenersWF { c1 with heap := c1.heap ++ [cached] } :=
            wf_alloc cached hnf.1
          have hp2 : heapPres c { c1 with heap := c1.heap ++ [cached] } :=
            heapPres_trans hnf.2 (heapPres_alloc c1 cached)
          have hvid : ∀ fv ∈ entries,
              viewHasField { c1 with heap := c1.heap ++ [cached] } c1.heap.length fv.1 := by
            intro fv hfv
            refine ⟨cached, get?_append_last c1.heap cached, ?_⟩
            rw [hkeys]
            exact List.mem_map_of_mem Prod.fst hfv
          set K : String := bdoCacheKey
              (jsToString (resolveNVal c1.heap
                (resolveFuel c1.heap ((lookupA cached "__typename").getD (.prim .undef)))
                ((lookupA cached "__typename").getD (.prim .undef))))
              (resolveNVal c1.heap
                (resolveFuel c1.heap ((lookupA cached "__id").getD (.prim .undef)))
                ((lookupA cached "__id").getD (.prim .undef))) with hK
          rcases hlk : lookupA c1.bdoCache K with _ | bdo
          · simp only [hlk]
            constructor
            · exact createBdo_wf _ _ _ hwf2 hvid
            · exact heapPres_trans hp2 (heapPres_of_heap_eq (createBdo_heap _ _ _ _))
          · simp only [hlk]
            rcases hu : updateBdo { c1 with heap := c1.heap ++ [cached] }
                K entries c1.heap.length with ⟨c3, ok⟩
            have hub := updateBdo_pres K entries c1.heap.length hwf2 hvid
            rw [hu] at hub
            cases ok with
            | true =>
              simp only
              exact ⟨hub.1, heapPres_trans hp2 hub.2.1⟩
            | false =>
              simp only
              exact ⟨hub.1, heapPres_trans hp2 hub.2.1⟩
        · rw [if_neg hnorm]
          exact hnf

/-- Preservation for the top-level result-tree pass. -/
theorem srt_pres : ∀ fuel,
    (∀ c fs, ListenersWF c →
      ListenersWF (createSrtFields fuel c fs).1 ∧
        heapPres c (createSrtFields fuel c fs).1) ∧
    (∀ c xs, ListenersWF c →
      ListenersWF (mapNormalize fuel c xs).1 ∧ heapPres c (mapNormalize fuel c xs).1) := by
  intro fuel
  induction fuel with
  | zero =>
    constructor
    · intro c fs hwf
      rw [createSrtFields]
      exact ⟨hwf, heapPres_refl c⟩
    · intro c xs hwf
      rw [mapNormalize_state]
      exact ⟨hwf, heapPres_refl c⟩
  | succ fuel ih =>
    obtain ⟨ihSF, _⟩ := ih
    have hmn : ∀ c xs, ListenersWF c →
        ListenersWF (mapNormalize (fuel + 1) c xs).1 ∧
          heapPres c (mapNormalize (fuel + 1) c xs).1 := by
      intro c xs hwf
      rw [mapNormalize_state]
      exact ⟨hwf, heapPres_refl c⟩
    refine ⟨?_, hmn⟩
    intro c fs hwf
    cases fs with
    | nil =>
      rw [createSrtFields]
      exact ⟨hwf, heapPres_refl c⟩
    | cons p rest =>
      obtain ⟨als, v⟩ := p
      rcases h1 : normalizeSelectionSet fuel c v with ⟨c1, o1⟩
      have hss := (norm_pres fuel).1 c v hwf
      rw [h1] at hss
      cases v
      case varr xs =>
        rw [createSrtFields]
        rcases hm : mapNormalize fuel c xs with ⟨d1, p1⟩
        have hd1 : d1 = c := by
          have := mapNormalize_state fuel c xs
          rw [hm] at this
          exact this
        subst hd1
        cases p1 with
        | none => exact ⟨hwf, heapPres_refl d1⟩
        | some nvs =>
          simp only
          rcases h2 : createSrtFields fuel d1 rest with ⟨c2, o2⟩
          have hsf := ihSF d1 rest hwf
          rw [h2] at hsf
          cases o2 with
          | none => exact hsf
          | some srtRest => exact hsf
      all_goals
        simp only [createSrtFields, h1]
        cases o1 with
        | none => exact hss
        | some nv =>
          simp only
          rcases h2 : createSrtFields fuel c1 rest with ⟨c2, o2⟩
          have hsf := ihSF c1 rest hss.1
          rw [h2] at hsf
          cases o2 with
          | none => exact ⟨hsf.1, heapPres_trans hss.2 hsf.2⟩
          | some srtRest => exact ⟨hsf.1, heapPres_trans hss.2 hsf.2⟩

/-- One `updateCache` call keeps the registry well formed and the
heap-shape evolution contract. -/
theorem updateCache_pres (fuel : Nat) (c : Cache) (q : String) (vars data : Value)
    (hwf : ListenersWF c) :
    ListenersWF (updateCache fuel c q vars data).1 ∧
      heapPres c (updateCache fuel c q vars data).1 := by
  rw [updateCache]
  rcases hv : entriesOf vars with _ | ves
  · exact ⟨hwf, heapPres_refl c⟩
  · simp only
    rcases hd : entriesOf data with _ | flds
    · exact ⟨hwf, heapPres_refl c⟩
    · simp only
      rcases h1 : createSrtFields fuel c flds with ⟨c1, o1⟩
      have hsf := (srt_pres fuel).1 c flds hwf
      rw [h1] at hsf
      cases o1 with
      | none => exact hsf
      | some srt =>
        simp only
        constructor
        · intro kb hkb fl hfl vid hvid
          exact hsf.1 kb hkb fl hfl vid hvid
        · exact ⟨hsf.2.1, fun vid sdo hs => hsf.2.2 vid sdo hs⟩

/-- A whole sequence of calls from any well-formed state. -/
theorem runCalls_pres (qs : List QueryCall) (c : Cache) (hwf : ListenersWF c) :
    ListenersWF (runCalls c qs) ∧ heapPres c (runCalls c qs) := by
  induction qs generalizing c with
  | nil => exact ⟨hwf, heapPres_refl c⟩
  | cons q rest ih =>
    have h1 := updateCache_pres q.fuel c q.queryName q.vars q.data hwf
    have h2 := ih (updateCache q.fuel c q.queryName q.vars q.data).1 h1.1
    exact ⟨h2.1, heapPres_trans h1.2 h2.2⟩

theorem listenersWF_empty : ListenersWF emptyCache := by
  intro kb hkb
  simp [emptyCache] at hkb

theorem runCalls_append (c : Cache) (A B : List QueryCall) :
    runCalls c (A ++ B) = runCalls (runCalls c A) B := by
  unfold runCalls
  exact List.foldl_append _ _ _ _

/-- C2: a view's set of field names never changes after its creation,
across any sequence of later `updateCache` calls (so a view that did
not select a field never acquires it); and a merge write
(`updateFromServer`) writes the fresh value exactly onto the views
registered as listeners of that field — every registered view receives
it, every other view is untouched. -/
theorem c2_view_field_set_stable :
    (∀ (A B : List QueryCall) (vid : Nat) (ks : List String),
      viewKeys (runCalls emptyCache A) vid = some ks →
      viewKeys (runCalls emptyCache (A ++ B)) vid = some ks) ∧
    (∀ (c : Cache) (key f : String) (v : Value) (vid : Nat) (sdo : Sdo)
      (bdo : BackingDataObject) (vids : List Nat),
      lookupA c.bdoCache key = some bdo →
      lookupA bdo.listeners f = some vids →
      c.heap.get? vid = some sdo →
      (vid ∈ vids →
        (updateFromServer c key f v).heap.get? vid = some (setA sdo f (.prim v))) ∧
      (vid ∉ vids → (updateFromServer c key f v).heap.get? vid = some sdo)) := by
  constructor
  · intro A B vid ks hks
    rw [runCalls_append]
    obtain ⟨wfA, _⟩ := runCalls_pres A emptyCache listenersWF_empty
    obtain ⟨wfB, presB⟩ := runCalls_pres B (runCalls emptyCache A) wfA
    unfold viewKeys at hks ⊢
    rcases hsdo : (runCalls emptyCache A).heap.get? vid with _ | sdo
    · rw [hsdo] at hks
      exact Option.noConfusion hks
    · rw [hsdo] at hks
      obtain ⟨sdo', hs', hk'⟩ := presB.2 vid sdo hsdo
      rw [hs']
      simpa [hk'] using hks
  · intro c key f v vid sdo bdo vids hbdo hvids hsdo
    have hufs : (updateFromServer c key f v).heap = vids.foldl (writeField f v) c.heap := by
      unfold updateFromServer
      rw [hbdo]
      simp only
      unfold updateListeners
      rw [lookupA_setA_self]
      simp only [hvids]
    constructor
    · intro hmem
      rw [hufs]
      exact get?_foldl_writeField_mem f v vids c.heap vid sdo hmem hsdo
    · intro hnmem
      rw [hufs]
      rw [get?_foldl_writeField_not_mem f v vids c.heap vid hnmem]
      exact hsdo

/-- Witness for C2 at a concrete two-call scenario and a concrete
single-field write. -/
theorem c2_witness :
    viewKeys (runCalls emptyCache
      ([⟨6, "getMovie", .vobj [], .vobj [("movie", .vobj
          [("__typename", .vstr "Movie"), ("__id", .vstr "1"), ("title", .vstr "A")])]⟩] ++
       [⟨6, "getMovieAgain", .vobj [], .vobj [("movie", .vobj
          [("__typename", .vstr "Movie"), ("__id", .vstr "1"), ("title", .vstr "B")])]⟩])) 0 =
      some ["__typename", "__id", "title"] ∧
    (updateFromServer
      ⟨[[("title", .prim (.vstr "A"))]],
       [("K", ⟨"K", [], [("title", [0])]⟩)], []⟩ "K" "title" (.vstr "B")).heap.get? 0 =
      some [("title", .prim (.vstr "B"))] := by
  constructor
  · exact c2_view_field_set_stable.1 _ _ 0 _ (by rfl)
  · exact (c2_view_field_set_stable.2
      ⟨[[("title", .prim (.vstr "A"))]], [("K", ⟨"K", [], [("title", [0])]⟩)], []⟩
      "K" "title" (.vstr "B") 0 [("title", .prim (.vstr "A"))]
      ⟨"K", [], [("title", [0])]⟩ [0] rfl rfl rfl).1 (by decide)

/-- Counterexample to C2 as stated: a view that *selected* a field is
not necessarily *registered* for it.  The view allocated by a merge
that aborts at the missing-listener-set throw (the C3 defect) selects
`description` but is never added to its listener set, so when a later
call stores a fresh `description` (visible in the record's server
values) that view keeps the stale value — while its registered field
`title` does receive the fresh value.  Delivery therefore reaches
exactly the registered listeners, not every view that selected the
field. -/
theorem c2_counterexample :
    ((updateCache 10 (updateCache 10 (updateCache 10 emptyCache "q1" (.vobj [])
        (.vobj [("m", .vobj [("__typename", .vstr "M"), ("__id", .vstr "1"),
          ("title", .vstr "T1")])])).1
      "q2" (.vobj []) (.vobj [("m", .vobj [("__typename", .vstr "M"), ("__id", .vstr "1"),
        ("title", .vstr "T2"), ("description", .vstr "D2")])])).1
      "q3" (.vobj []) (.vobj [("m", .vobj [("__typename", .vstr "M"), ("__id", .vstr "1"),
        ("title", .vstr "T3"), ("description", .vstr "D3")])])).1.heap.get? 1).map
      (fun sdo => (lookupA sdo "description", lookupA sdo "title")) =
      some (some (.prim (.vstr "D2")), some (.prim (.vstr "T3"))) ∧
    (lookupA (updateCache 10 (updateCache 10 (updateCache 10 emptyCache "q1" (.vobj [])
        (.vobj [("m", .vobj [("__typename", .vstr "M"), ("__id", .vstr "1"),
          ("title", .vstr "T1")])])).1
      "q2" (.vobj []) (.vobj [("m", .vobj [("__typename", .vstr "M"), ("__id", .vstr "1"),
        ("title", .vstr "T2"), ("description", .vstr "D2")])])).1
      "q3" (.vobj []) (.vobj [("m", .vobj [("__typename", .vstr "M"), ("__id", .vstr "1"),
        ("title", .vstr "T3"), ("description", .vstr "D3")])])).1.bdoCache
      "M|\"1\"").map
      (fun b => (lookupA b.serverValues "description", lookupA b.listeners "description")) =
      some (some (.vstr "D3"), none) ∧
    (Value.vstr "D2") ≠ (Value.vstr "D3") :=
  ⟨rfl, rfl, by simp⟩

/-- C4: the claim (and the spec) say `create` stores the node's
original field values as the initial server values and registers the
first view as listener of exactly those field names.  The listener part
holds, but the code builds the record with an *empty* server-value map,
dropping the initial values.  Evaluated at the failing input (a fresh
`Movie` entity with a `title` field): the created record has
`serverValues = []` and per-field listener sets `[view 0]`. -/
theorem c4_create_has_empty_server_values :
    ((lookupA (updateCache 6 emptyCache "getMovie" (.vobj []) (.vobj [("movie", .vobj
        [("__typename", .vstr "Movie"), ("__id", .vstr "1"),
         ("title", .vstr "The Matrix")])])).1.bdoCache "Movie|\"1\"").map
      (fun b => (b.serverValues, b.listeners))) =
    some ([], [("__typename", [0]), ("__id", [0]), ("title", [0])]) := by
  rfl

/-- C6 counterexample: the claim says `isNormalizable` is true iff the
value is a selection set whose type-name and identifier fields are both
non-null, and that a null identifier degrades the node to inert data
with no canonical record.  The source checks only field *presence*: on
`\x7b __typename: "Movie", __id: null \x7d` it returns true where the
claimed characterisation returns false, and normalization creates a
canonical record keyed `Movie|null`. -/
theorem c6_counterexample :
    isNormalizeable (.vobj [("__typename", .vstr "Movie"), ("__id", .vnull)]) = true ∧
    isNormalizableSpec (.vobj [("__typename", .vstr "Movie"), ("__id", .vnull)]) = false ∧
    (updateCache 6 emptyCache "getMovie" (.vobj []) (.vobj [("m", .vobj
      [("__typename", .vstr "Movie"), ("__id", .vnull)])])).1.bdoCache.map Prod.fst =
      ["Movie|null"] := by
  exact ⟨rfl, rfl, rfl⟩

/-- C6 amended: `isNormalizeable` is true iff the value is a selection
set that *carries* both a type-name field and an identifier field,
regardless of their values (null identifiers are accepted); such a node
is normalized rather than degraded, producing a canonical record keyed
by the serialized null identifier, and the classifier never throws. -/
theorem c6_isNormalizeable_presence_only :
    (∀ v : Value, isNormalizeable v = true ↔
      (isShallowSelectionSet v = true ∧
        "__typename" ∈ ((entriesOf v).getD []).map Prod.fst ∧
        "__id" ∈ ((entriesOf v).getD []).map Prod.fst)) ∧
    (updateCache 6 emptyCache "getMovie" (.vobj []) (.vobj [("m", .vobj
      [("__typename", .vstr "Movie"), ("__id", .vnull)])])).2 = true := by
  constructor
  · intro v
    cases v <;>
      simp [isNormalizeable, isShallowSelectionSet, entriesOf, Option.getD]
    rename_i fs
    intro x hx y hy hemp
    subst hemp
    simp at hx
  · rfl

/-! ### Entity-key lemmas (C7) -/

theorem escChar_ne_nil (c : Char) : escChar c ≠ [] := by
  unfold escChar
  split
  · simp
  · split
    · simp
    · simp

/-- In an escaped JSON string body every quote character is preceded by
a backslash: whenever the body splits as `x ++ '"' :: y`, `x` ends in a
backslash. -/
theorem esc_no_bare_quote : ∀ (l x y : List Char),
    escList l = x ++ '"' :: y → ∃ x', x = x' ++ ['\\'] := by
  intro l
  induction l with
  | nil =>
    intro x y h
    rw [escList] at h
    cases x <;> simp at h
  | cons c t ih =>
    intro x y h
    rw [escList] at h
    by_cases hc1 : c = '"'
    · subst hc1
      rw [escChar, if_pos rfl] at h
      match x, h with
      | [], h => simp at h
      | [a], h =>
        simp at h
        exact ⟨[], by simp [h.1.symm]⟩
      | a :: b :: x'', h =>
        simp at h
        obtain ⟨ha, hb, hrest⟩ := h
        obtain ⟨w, hw⟩ := ih x'' y hrest
        exact ⟨a :: b :: w, by simp [hw]⟩
    · by_cases hc2 : c = '\\'
      · subst hc2
        rw [escChar, if_neg (by decide), if_pos rfl] at h
        match x, h with
        | [], h => simp at h
        | [a], h => simp at h
        | a :: b :: x'', h =>
          simp at h
          obtain ⟨ha, hb, hrest⟩ := h
          obtain ⟨w, hw⟩ := ih x'' y hrest
          exact ⟨a :: b :: w, by simp [hw]⟩
      · rw [escChar, if_neg hc1, if_neg hc2] at h
        match x, h with
        | [], h =>
          simp at h
          exact absurd h.1 hc1
        | a :: x'', h =>
          simp at h
          obtain ⟨w, hw⟩ := ih x'' y h.2
          exact ⟨a :: w, by simp [hw]⟩

/-- The character escape is a prefix code, so escaping is injective. -/
theorem escList_inj : ∀ l1 l2 : List Char, escList l1 = escList l2 → l1 = l2 := by
  intro l1
  induction l1 with
  | nil =>
    intro l2 h
    cases l2 with
    | nil => rfl
    | cons c t =>
      rw [escList, escList] at h
      exact absurd h.symm (by simp [escChar_ne_nil c])
  | cons c1 t1 ih =>
    intro l2 h
    cases l2 with
    | nil =>
      rw [escList, escList] at h
      exact absurd h (by simp [escChar_ne_nil c1])
    | cons c2 t2 =>
      rw [escList, escList] at h
      have heads : c1 = c2 ∧ escList t1 = escList t2 := by
        by_cases h11 : c1 = '"' <;> by_cases h12 : c1 = '\\' <;>
          by_cases h21 : c2 = '"' <;> by_cases h22 : c2 = '\\' <;>
            simp_all [escChar] <;> exact absurd h.1.symm h22
      rw [heads.1, ih t2 heads.2]

/-- Splitting a pipe-plus-JSON-string-literal tail at a later pipe is
impossible: the shift must be empty. -/
theorem key_split_aux : ∀ (u s1 s2 : List Char),
    '|' :: '"' :: (escList s1 ++ ['"']) = u ++ '|' :: '"' :: (escList s2 ++ ['"']) →
    u = [] := by
  intro u s1 s2 h
  match u, h with
  | [], _ => rfl
  | [c], h =>
    simp at h
  | c :: d :: u'', h =>
    simp at h
    obtain ⟨hc, hd, hrest⟩ := h
    have hre : escList s1 ++ ['"'] = (u'' ++ '|' :: '"' :: escList s2) ++ ['"'] := by
      rw [hrest]
      simp
    have hmid := (List.append_inj' hre (by simp)).1
    have hmid2 : escList s1 = (u'' ++ ['|']) ++ '"' :: escList s2 := by
      rw [hmid]
      simp
    obtain ⟨x', hx'⟩ := esc_no_bare_quote s1 (u'' ++ ['|']) (escList s2) hmid2
    have hlast := congrArg List.getLast? hx'
    rw [List.getLast?_concat, List.getLast?_concat] at hlast
    injection hlast with hlast
    exact absurd hlast (by decide)

/-- C7 counterexample: the claim requires order-stable serialization of
composite identifiers, but `bdoCacheKey` serializes the raw
`JSON.stringify` insertion order, so two logically equal composite
identifiers whose fields appear in different orders produce different
keys. -/
theorem c7_counterexample :
    bdoCacheKey "T" (.vobj [("a", .vnum 1), ("b", .vnum 2)]) ≠
      bdoCacheKey "T" (.vobj [("b", .vnum 2), ("a", .vnum 1)]) := by
  decide

/-- C7 amended: the entity-key function is deterministic, and for
string identifiers it is injective: distinct (type name, id) pairs give
distinct keys, for arbitrary type names (the JSON escaping of the
quote makes the pipe-quote frame unambiguous).  Composite (object)
identifiers, however, are serialized in raw insertion order, so
logically equal identifiers with reordered fields give different keys. -/
theorem c7_entity_key_injective_for_string_ids :
    (∀ t1 t2 s1 s2 : String,
      bdoCacheKey t1 (.vstr s1) = bdoCacheKey t2 (.vstr s2) → t1 = t2 ∧ s1 = s2) ∧
    bdoCacheKey "T" (.vobj [("a", .vnum 1), ("b", .vnum 2)]) =
      "T|\x7b\"a\":1,\"b\":2\x7d" := by
  constructor
  · intro t1 t2 s1 s2 h
    have hd := congrArg String.data h
    have hd2 : t1.data ++ '|' :: '"' :: (escList s1.data ++ ['"']) =
        t2.data ++ '|' :: '"' :: (escList s2.data ++ ['"']) := by
      simpa [bdoCacheKey, jsonStringify, quoteJson, String.data_append] using hd
    rcases List.append_eq_append_iff.mp hd2 with ⟨u, hu1, hu2⟩ | ⟨u, hu1, hu2⟩
    · have hu0 : u = [] := key_split_aux u s1.data s2.data hu2
      subst hu0
      simp at hu1 hu2
      exact ⟨String.ext hu1.symm, String.ext (escList_inj _ _ hu2)⟩
    · have hu0 : u = [] := key_split_aux u s2.data s1.data hu2
      subst hu0
      simp at hu1 hu2
      exact ⟨String.ext hu1, String.ext (escList_inj _ _ hu2).symm⟩
  · decide

/-- Witness for C7 at concrete keys. -/
theorem c7_witness : ("Movie" : String) = "Movie" ∧ ("1" : String) = "1" :=
  c7_entity_key_injective_for_string_ids.1 "Movie" "Movie" "1" "1" rfl

/-! ### Sort-order lemmas (C8) -/

theorem charsLe_total : ∀ a b : List Char, charsLe a b = true ∨ charsLe b a = true := by
  intro a
  induction a with
  | nil => intro b; exact Or.inl rfl
  | cons x xs ih =>
    intro b
    cases b with
    | nil => exact Or.inr rfl
    | cons y ys =>
      by_cases hxy : x.val.toNat = y.val.toNat
      · rcases ih ys with h | h
        · exact Or.inl (by simp [charsLe, hxy, h])
        · exact Or.inr (by simp [charsLe, hxy.symm, h])
      · rcases Nat.lt_or_ge x.val.toNat y.val.toNat with hlt | hge
        · exact Or.inl (by simp [charsLe, hxy, hlt])
        · have hgt : y.val.toNat < x.val.toNat := by omega
          exact Or.inr (by
            have hne : y.val.toNat ≠ x.val.toNat := fun hh => hxy hh.symm
            simp [charsLe, hne, hgt])

theorem charsLe_antisymm : ∀ a b : List Char,
    charsLe a b = true → charsLe b a = true → a = b := by
  intro a
  induction a with
  | nil =>
    intro b h1 h2
    cases b with
    | nil => rfl
    | cons y ys => simp [charsLe] at h2
  | cons x xs ih =>
    intro b h1 h2
    cases b with
    | nil => simp [charsLe] at h1
    | cons y ys =>
      by_cases hxy : x.val.toNat = y.val.toNat
      · have hx : x = y := Char.ext (UInt32.toNat.inj hxy)
        subst hx
        simp [charsLe] at h1 h2
        rw [ih ys h1 h2]
      · have hyx : y.val.toNat ≠ x.val.toNat := fun hh => hxy hh.symm
        simp [charsLe, hxy, hyx] at h1 h2
        omega

theorem charsLe_trans : ∀ a b c : List Char,
    charsLe a b = true → charsLe b c = true → charsLe a c = true := by
  intro a
  induction a with
  | nil => intro b c h1 h2; rfl
  | cons x xs ih =>
    intro b c h1 h2
    cases b with
    | nil => simp [charsLe] at h1
    | cons y ys =>
      cases c with
      | nil => simp [charsLe] at h2
      | cons z zs =>
        by_cases hxy : x.val.toNat = y.val.toNat
        · by_cases hyz : y.val.toNat = z.val.toNat
          · simp [charsLe, hxy, hyz] at h1 h2
            simp [charsLe, hxy.trans hyz, ih ys zs h1 h2]
          · simp [charsLe, hyz] at h2
            have hxz : x.val.toNat < z.val.toNat := by omega
            simp [charsLe, Nat.ne_of_lt hxz, hxz]
        · simp [charsLe, hxy] at h1
          by_cases hyz : y.val.toNat = z.val.toNat
          · have hxz : x.val.toNat < z.val.toNat := by omega
            simp [charsLe, Nat.ne_of_lt hxz, hxz]
          · simp [charsLe, hyz] at h2
            have hxz : x.val.toNat < z.val.toNat := by omega
            simp [charsLe, Nat.ne_of_lt hxz, hxz]

theorem strLe_total (a b : String) : strLe a b = true ∨ strLe b a = true :=
  charsLe_total a.data b.data

theorem strLe_antisymm {a b : String} (h1 : strLe a b = true) (h2 : strLe b a = true) :
    a = b :=
  String.ext (charsLe_antisymm a.data b.data h1 h2)

theorem strLe_trans {a b c : String} (h1 : strLe a b = true) (h2 : strLe b c = true) :
    strLe a c = true :=
  charsLe_trans a.data b.data c.data h1 h2

theorem strLe_of_not_le {a b : String} (h : ¬ strLe a b = true) : strLe b a = true := by
  rcases strLe_total a b with h' | h'
  · exact absurd h' h
  · exact h'

/-- The comparison the default sort applies to two entries. -/
def leCo (a b : String × Value) : Prop := strLe (entryCo a) (entryCo b) = true

theorem sortInsert_perm (x : String × Value) :
    ∀ l : List (String × Value), (sortInsert x l).Perm (x :: l) := by
  intro l
  induction l with
  | nil => exact List.Perm.refl _
  | cons y ys ih =>
    rw [sortInsert]
    split
    · exact ((ih.cons y).trans (List.Perm.swap x y ys)).symm.symm
    · exact List.Perm.refl _

theorem jsSort_perm_aux :
    ∀ (l acc : List (String × Value)),
      (l.foldl (fun a x => sortInsert x a) acc).Perm (acc ++ l) := by
  intro l
  induction l with
  | nil => intro acc; simp
  | cons x rest ih =>
    intro acc
    rw [List.foldl_cons]
    refine (ih (sortInsert x acc)).trans ?_
    have h1 : (sortInsert x acc ++ rest).Perm ((x :: acc) ++ rest) :=
      (sortInsert_perm x acc).append_right rest
    refine h1.trans ?_
    exact (@List.perm_middle _ x acc rest).symm

theorem jsSort_perm (l : List (String × Value)) : (jsSort l).Perm l := by
  simpa [jsSort] using jsSort_perm_aux l []

theorem sortInsert_sorted (x : String × Value) :
    ∀ l : List (String × Value), l.Pairwise leCo → (sortInsert x l).Pairwise leCo := by
  intro l
  induction l with
  | nil =>
    intro h
    rw [sortInsert]
    exact List.pairwise_singleton leCo x
  | cons y ys ih =>
    intro h
    rw [sortInsert]
    split
    · next hle =>
      rcases List.pairwise_cons.mp h with ⟨hy, hys⟩
      refine List.pairwise_cons.mpr ⟨?_, ih hys⟩
      intro z hz
      have hz' : z = x ∨ z ∈ ys :=
        List.mem_cons.mp ((sortInsert_perm x ys).mem_iff.mp hz)
      rcases hz' with hz' | hz'
      · subst hz'
        exact hle
      · exact hy z hz'
    · next hnle =>
      have hxy : leCo x y := strLe_of_not_le hnle
      rcases List.pairwise_cons.mp h with ⟨hy, hys⟩
      refine List.pairwise_cons.mpr ⟨?_, h⟩
      intro z hz
      rcases List.mem_cons.mp hz with hz' | hz'
      · subst hz'
        exact hxy
      · exact strLe_trans hxy (hy z hz')

theorem jsSort_sorted_aux :
    ∀ (l acc : List (String × Value)), acc.Pairwise leCo →
      (l.foldl (fun a x => sortInsert x a) acc).Pairwise leCo := by
  intro l
  induction l with
  | nil => intro acc h; simpa using h
  | cons x rest ih =>
    intro acc h
    rw [List.foldl_cons]
    exact ih (sortInsert x acc) (sortInsert_sorted x acc h)

theorem jsSort_sorted (l : List (String × Value)) : (jsSort l).Pairwise leCo :=
  jsSort_sorted_aux l [] (List.Pairwise.nil)

/-- Two sorted permutations whose comparison strings are pairwise
distinct are equal. -/
theorem sorted_perm_eq :
    ∀ l1 l2 : List (String × Value), l1.Perm l2 →
      l1.Pairwise leCo → l2.Pairwise leCo →
      l1.Pairwise (fun a b => entryCo a ≠ entryCo b) → l1 = l2 := by
  intro l1
  induction l1 with
  | nil =>
    intro l2 hp _ _ _
    exact (List.Perm.nil_eq hp).symm.symm
  | cons a t1 ih =>
    intro l2 hp hs1 hs2 hd1
    cases l2 with
    | nil => exact absurd hp.symm (by simp)
    | cons b t2 =>
      by_cases hab : a = b
      · subst hab
        rcases List.pairwise_cons.mp hs1 with ⟨_, hs1'⟩
        rcases List.pairwise_cons.mp hs2 with ⟨_, hs2'⟩
        rcases List.pairwise_cons.mp hd1 with ⟨_, hd1'⟩
        rw [ih t2 (hp.cons_inv) hs1' hs2' hd1']
      · have hain : a ∈ b :: t2 := hp.subset (by simp)
        have hbin : b ∈ a :: t1 := hp.symm.subset (by simp)
        have hat2 : a ∈ t2 := by
          rcases List.mem_cons.mp hain with h | h
          · exact absurd h hab
          · exact h
        have hbt1 : b ∈ t1 := by
          rcases List.mem_cons.mp hbin with h | h
          · exact absurd h.symm hab
          · exact h
        have h1 : leCo a b := (List.pairwise_cons.mp hs1).1 b hbt1
        have h2 : leCo b a := (List.pairwise_cons.mp hs2).1 a hat2
        have hco : entryCo a = entryCo b := strLe_antisymm h1 h2
        have hne : entryCo a ≠ entryCo b := (List.pairwise_cons.mp hd1).1 b hbt1
        exact absurd hco hne

/-- Splitting at the first comma is unambiguous for comma-free
prefixes. -/
theorem comma_split : ∀ (k1 k2 r1 r2 : List Char),
    ',' ∉ k1 → ',' ∉ k2 → k1 ++ ',' :: r1 = k2 ++ ',' :: r2 → k1 = k2 ∧ r1 = r2 := by
  intro k1
  induction k1 with
  | nil =>
    intro k2 r1 r2 h1 h2 h
    cases k2 with
    | nil => simpa using h
    | cons c t =>
      simp at h
      exact absurd (List.mem_cons.mpr (Or.inl h.1)) h2
  | cons c t ih =>
    intro k2 r1 r2 h1 h2 h
    cases k2 with
    | nil =>
      simp at h
      exact absurd (List.mem_cons.mpr (Or.inl h.1.symm)) h1
    | cons d u =>
      simp at h
      obtain ⟨hcd, hrest⟩ := h
      have := ih u r1 r2 (fun hh => h1 (by simp [hh])) (fun hh => h2 (by simp [hh])) hrest
      exact ⟨by simp [hcd, this.1], this.2⟩

/-- Entries with comma-free names and equal comparison strings have
equal names. -/
theorem entryCo_eq_key {p q : String × Value} (hp : ',' ∉ p.1.data) (hq : ',' ∉ q.1.data)
    (h : entryCo p = entryCo q) : p.1 = q.1 := by
  have hd := congrArg String.data h
  simp only [entryCo, String.data_append] at hd
  have hd2 : p.1.data ++ ',' :: (match p.2 with
      | Value.undef => ""
      | Value.vnull => ""
      | v => jsToString v : String).data =
      q.1.data ++ ',' :: (match q.2 with
      | Value.undef => ""
      | Value.vnull => ""
      | v => jsToString v : String).data := by
    simpa using hd
  exact String.ext (comma_split _ _ _ _ hp hq hd2).1

/-- C8 counterexample: the claim asserts reorder-stability for all
variable records and different keys for different variable values.
Both fail: two records with the same bindings whose comma-containing
names tie under the default comparator keep their insertion orders and
give different keys, and `undefined` and `null` variable values give
identical keys because `JSON.stringify` prints `undefined` array
elements as `null`. -/
theorem c8_counterexample :
    srtCacheKey "q" (.vobj [("a", .vstr "b,c"), ("a,b", .vstr "c")]) ≠
      srtCacheKey "q" (.vobj [("a,b", .vstr "c"), ("a", .vstr "b,c")]) ∧
    srtCacheKey "q" (.vobj [("a", .undef)]) = srtCacheKey "q" (.vobj [("a", .vnull)]) := by
  exact ⟨by decide, rfl⟩

/-- C8 amended: `srtCacheKey` is stable under variable-key reordering
provided the variable names are distinct and comma-free (the default
sort compares the string coercion `name + "," + value`, so
comma-containing names can tie and keep insertion order); the spec's
example keys differ when the query name or the variable value differs,
but `undefined` and `null` values collide. -/
theorem c8_result_tree_key_sorted :
    (∀ (q : String) (fs1 fs2 : List (String × Value)),
      fs1.Perm fs2 →
      fs1.Pairwise (fun a b => a.1 ≠ b.1) →
      (∀ p ∈ fs1, ',' ∉ p.1.data) →
      srtCacheKey q (.vobj fs1) = srtCacheKey q (.vobj fs2)) ∧
    srtCacheKey "listMovies" (.vobj [("limit", .vnum 10)]) ≠
      srtCacheKey "listMovies" (.vobj [("limit", .vnum 20)]) ∧
    srtCacheKey "listMovies" (.vobj [("limit", .vnum 10)]) ≠
      srtCacheKey "getMovies" (.vobj [("limit", .vnum 10)]) := by
  refine ⟨?_, by decide, by decide⟩
  intro q fs1 fs2 hperm hkeys hfree
  have hco1 : fs1.Pairwise (fun a b => entryCo a ≠ entryCo b) := by
    refine List.Pairwise.imp_of_mem ?_ hkeys
    intro a b ha hb hne hco
    exact hne (entryCo_eq_key (hfree a ha) (hfree b hb) hco)
  have hsorted1 := jsSort_sorted fs1
  have hsorted2 := jsSort_sorted fs2
  have hp : (jsSort fs1).Perm (jsSort fs2) :=
    (jsSort_perm fs1).trans (hperm.trans (jsSort_perm fs2).symm)
  have hco1' : (jsSort fs1).Pairwise (fun a b => entryCo a ≠ entryCo b) := by
    refine (List.Perm.pairwise_iff ?_ (jsSort_perm fs1)).mpr hco1
    intro a b hab hco
    exact hab hco.symm
  have heq : jsSort fs1 = jsSort fs2 :=
    sorted_perm_eq _ _ hp hsorted1 hsorted2 hco1'
  unfold srtCacheKey
  simp only [entriesOf, Option.getD_some]
  rw [heq]

/-- Witness for C8: reordering two comma-free variables leaves the key
unchanged. -/
theorem c8_witness :
    srtCacheKey "listMovies" (.vobj [("genre", .vstr "scifi"), ("limit", .vnum 10)]) =
      srtCacheKey "listMovies" (.vobj [("limit", .vnum 10), ("genre", .vstr "scifi")]) :=
  c8_result_tree_key_sorted.1 "listMovies" _ _
    (List.Perm.swap (("limit", Value.vnum 10) : String × Value)
      (("genre", Value.vstr "scifi") : String × Value) [])
    (by simp) (by decide)

/-- C9: the claim (and the spec) say a field whose array value mixes
scalar and selection-set elements stores the raw original array
unmodified on the parent view, normalizes none of the elements, and
completes the pass without a hard failure.  But
`value.map(this.cacheField)` passes `cacheField` to `map` unbound, so
inside the strict-mode callback `this` is `undefined` and a
selection-set element throws a `TypeError` at
`this.normalizeSelectionSet`: the whole pass hard-fails with the cache
state unchanged (first conjunct, for any array containing a
selection-set element), and at the failing input (field `items` mixing
the scalar `1` with a normalizable `B` entity) the call reports failure
with nothing cached at all (second conjunct). -/
theorem c9_mixed_array_unbound_throws :
    (∀ (xs : List Value), (∃ x ∈ xs, isShallowSelectionSet x = true) →
      ∀ (fuel : Nat) (c : Cache), xs.length < fuel →
        cacheFieldList fuel c xs = (c, none)) ∧
    (updateCache 20 emptyCache "q" (.vobj []) (.vobj [("m", .vobj
      [("__typename", .vstr "M"), ("__id", .vstr "9"),
       ("items", .varr [.vnum 1, .vobj
         [("__typename", .vstr "B"), ("__id", .vstr "7"),
          ("x", .vnum 5)]])])])) = (emptyCache, false) := by
  constructor
  · intro xs
    induction xs with
    | nil =>
      intro hx
      obtain ⟨x, hx, _⟩ := hx
      simp at hx
    | cons x rest ih =>
      intro hx fuel c hlen
      obtain ⟨w, rfl⟩ : ∃ w, fuel = w + 1 := ⟨fuel - 1, by omega⟩
      rw [cacheFieldList]
      by_cases hss : isShallowSelectionSet x
      · rw [if_pos hss]
      · rw [if_neg hss]
        have hxr : ∃ x ∈ rest, isShallowSelectionSet x = true := by
          obtain ⟨y, hy, hyss⟩ := hx
          rcases List.mem_cons.mp hy with h | h
          · subst h
            exact absurd hyss hss
          · exact ⟨y, h, hyss⟩
        rw [ih hxr w c (by simp at hlen; omega)]
  · rfl

/-! ### Flat-entity normalization lemmas -/

theorem setA_setA_gen {β : Type} (l : List (String × β)) (k : String) (v1 v2 : β) :
    setA (setA l k v1) k v2 = setA l k v2 := by
  induction l with
  | nil => simp [setA]
  | cons q t ih =>
    obtain ⟨k0, v0⟩ := q
    by_cases h0 : k0 = k
    · simp [setA, h0]
    · simp [setA, h0, ih]

theorem lookupA_append_of_none {β : Type} {l1 : List (String × β)} (l2 : List (String × β))
    {k : String} (h : lookupA l1 k = none) : lookupA (l1 ++ l2) k = lookupA l2 k := by
  induction l1 with
  | nil => simp
  | cons q t ih =>
    obtain ⟨k0, v0⟩ := q
    by_cases h0 : k0 = k
    · simp [lookupA, h0] at h
    · rw [lookupA, if_neg h0] at h
      simpa [lookupA, h0] using ih h

theorem lookupA_append_of_some {β : Type} {l1 : List (String × β)} (l2 : List (String × β))
    {k : String} {v : β} (h : lookupA l1 k = some v) : lookupA (l1 ++ l2) k = some v := by
  induction l1 with
  | nil => simp [lookupA] at h
  | cons q t ih =>
    obtain ⟨k0, v0⟩ := q
    by_cases h0 : k0 = k
    · rw [lookupA, if_pos h0] at h
      simpa [lookupA, h0] using h
    · rw [lookupA, if_neg h0] at h
      simpa [lookupA, h0] using ih h

theorem get?_isSome_of_lt {α : Type} {l : List α} {n : Nat} (h : n < l.length) :
    ∃ a, l.get? n = some a := by
  induction l generalizing n with
  | nil => simp at h
  | cons x t ih =>
    cases n with
    | zero => exact ⟨x, rfl⟩
    | succ m => simpa using ih (by simpa using h)

theorem lookupA_primFields (fs : List (String × Value)) (k : String) :
    lookupA (primFields fs) k = (lookupA fs k).map (fun v => NVal.prim v) := by
  induction fs with
  | nil => simp [primFields, lookupA]
  | cons p t ih =>
    obtain ⟨k0, v0⟩ := p
    by_cases h0 : k0 = k
    · simp [primFields, lookupA, h0]
    · simpa [primFields, lookupA, h0] using ih

theorem any_key_of_lookupA {β : Type} {l : List (String × β)} {k : String} {v : β}
    (h : lookupA l k = some v) : l.any (fun p => p.1 == k) = true := by
  induction l with
  | nil => simp [lookupA] at h
  | cons q t ih =>
    obtain ⟨k0, v0⟩ := q
    by_cases h0 : k0 = k
    · simp [h0]
    · rw [lookupA, if_neg h0] at h
      simp [ih h]

theorem map_fst_primFields (fs : List (String × Value)) :
    (primFields fs).map Prod.fst = fs.map Prod.fst := by
  simp [primFields]

/-- Rebuilding a flat (all-scalar) selection set copies every field and
leaves the cache untouched. -/
theorem normalizeFields_flat : ∀ (fs : List (String × Value)) (fuel : Nat) (c : Cache),
    fs.length < fuel → (∀ p ∈ fs, isScalar p.2 = true) →
    normalizeFields fuel c fs = (c, some (primFields fs)) := by
  intro fs
  induction fs with
  | nil =>
    intro fuel c hf _
    cases fuel with
    | zero => omega
    | succ fuel' => simp [normalizeFields, primFields]
  | cons p rest ih =>
    intro fuel c hf hsc
    obtain ⟨f, v⟩ := p
    cases fuel with
    | zero => omega
    | succ fuel' =>
      cases fuel' with
      | zero => simp at hf
      | succ g =>
        have hv := hsc (f, v) (by simp)
        have hrest : normalizeFields (g + 1) c rest = (c, some (primFields rest)) :=
          ih (g + 1) c (by simp at hf; omega) (fun p hp => hsc p (by simp [hp]))
        cases v
        case varr xs => simp [isScalar] at hv
        case vobj fs0 => simp [isScalar] at hv
        all_goals
          simp only [normalizeFields, cacheField, isShallowSelectionSet]
          rw [if_neg (by simp)]
          simp only
          rw [hrest]
          simp [primFields]

theorem resolveNVal_prim (h : List Sdo) (n : Nat) (v : Value) :
    resolveNVal h (n + 1) (.prim v) = v := rfl

/-- Normalizing a flat normalizable node whose entity key is absent
from the store: the rebuilt record is allocated as a fresh view, a new
backing record is created under the node's key with empty server
values, and the first view is registered as listener of exactly the
node's field names. -/
theorem nss_flat_create (fs : List (String × Value)) (fuel : Nat) (c : Cache)
    (tn : String) (idv : Value)
    (hf : fs.length < fuel)
    (hsc : ∀ p ∈ fs, isScalar p.2 = true)
    (htn : lookupA fs "__typename" = some (.vstr tn))
    (hid : lookupA fs "__id" = some idv)
    (hfresh : lookupA c.bdoCache (bdoCacheKey tn idv) = none) :
    normalizeSelectionSet (fuel + 1) c (.vobj fs) =
      ({ heap := c.heap ++ [primFields fs],
         bdoCache := setA c.bdoCache (bdoCacheKey tn idv)
           ⟨bdoCacheKey tn idv, [],
            fs.foldl (fun L p => setA L p.1 [c.heap.length]) []⟩,
         srtCache := c.srtCache }, some (.ref c.heap.length)) := by
  rw [normalizeSelectionSet]
  rw [show entriesOf (.vobj fs) = some fs from rfl]
  simp only
  rw [normalizeFields_flat fs fuel c hf hsc]
  simp only
  have hnorm : isNormalizeableCached (primFields fs) = true := by
    unfold isNormalizeableCached
    have h1 := any_key_of_lookupA (l := primFields fs) (k := "__typename")
      (v := .prim (.vstr tn)) (by rw [lookupA_primFields, htn]; rfl)
    have h2 := any_key_of_lookupA (l := primFields fs) (k := "__id")
      (v := .prim idv) (by rw [lookupA_primFields, hid]; rfl)
    simp only [primFields] at h1 h2
    simp [primFields, h1, h2]
  rw [if_pos hnorm]
  simp only [lookupA_primFields, htn, hid, Option.map_some', Option.getD_some,
    resolveFuel, nvalSize, resolveNVal_prim, jsToString]
  rw [hfresh]
  simp only [createBdo]

/-- Writing field `f'` leaves every view's field `f ≠ f'` unchanged. -/
theorem foldl_writeField_other (f' : String) (v : Value) (f : String) (hne : f' ≠ f) :
    ∀ (vids : List Nat) (h : List Sdo) (w : Nat) (sdoW : Sdo),
      h.get? w = some sdoW →
      ∃ sdoW', (vids.foldl (writeField f' v) h).get? w = some sdoW' ∧
        lookupA sdoW' f = lookupA sdoW f := by
  intro vids
  induction vids with
  | nil => exact fun h w sdoW hs => ⟨sdoW, hs, rfl⟩
  | cons u t ih =>
    intro h w sdoW hs
    rw [List.foldl_cons]
    have hstep : ∃ sdo1, (writeField f' v h u).get? w = some sdo1 ∧
        lookupA sdo1 f = lookupA sdoW f := by
      unfold writeField
      split
      · next sdoU hU =>
        by_cases huw : u = w
        · subst huw
          rw [hU] at hs
          injection hs with hs
          subst hs
          exact ⟨setA sdoU f' (.prim v),
            get?_set_self _ _ _ (List.get?_eq_some.mp hU).1,
            lookupA_setA_ne _ _ _ _ (fun hh => hne hh.symm)⟩
        · exact ⟨sdoW, by rw [get?_set_ne _ _ _ _ huw]; exact hs, rfl⟩
      · exact ⟨sdoW, hs, rfl⟩
    obtain ⟨sdo1, hs1, hl1⟩ := hstep
    obtain ⟨sdo2, hs2, hl2⟩ := ih _ w sdo1 hs1
    exact ⟨sdo2, hs2, hl2.trans hl1⟩

/-- One `updateBdo` iteration for a field other than `f` preserves
every view's field `f` and the record's listener set for `f`. -/
theorem updateBdoStep_frame (c : Cache) (K f' : String) (v : Value) (vid : Nat)
    (f : String) (hne : f' ≠ f) :
    (∀ w sdoW, c.heap.get? w = some sdoW →
      ∃ sdoW', (updateBdoStep c K f' v vid).1.heap.get? w = some sdoW' ∧
        lookupA sdoW' f = lookupA sdoW f) ∧
    (∀ bdo, lookupA c.bdoCache K = some bdo →
      ∃ bdo', lookupA (updateBdoStep c K f' v vid).1.bdoCache K = some bdo' ∧
        lookupA bdo'.listeners f = lookupA bdo.listeners f) := by
  have hufs : (∀ w sdoW, c.heap.get? w = some sdoW →
        ∃ sdoW', (updateFromServer c K f' v).heap.get? w = some sdoW' ∧
          lookupA sdoW' f = lookupA sdoW f) ∧
      (∀ bdo, lookupA c.bdoCache K = some bdo →
        ∃ bdo', lookupA (updateFromServer c K f' v).bdoCache K = some bdo' ∧
          lookupA bdo'.listeners f = lookupA bdo.listeners f) := by
    unfold updateFromServer
    rcases hb : lookupA c.bdoCache K with _ | bdo0
    · exact ⟨fun w sdoW hs => ⟨sdoW, hs, rfl⟩,
        fun bdo h => ⟨bdo, by rw [hb]; exact h, rfl⟩⟩
    · simp only
      unfold updateListeners
      rw [lookupA_setA_self]
      simp only
      rcases hl : lookupA bdo0.listeners f' with _ | vids
      · refine ⟨fun w sdoW hs => ⟨sdoW, hs, rfl⟩, fun bdo h => ?_⟩
        injection h with h
        subst h
        exact ⟨_, lookupA_setA_self _ _ _, rfl⟩
      · refine ⟨fun w sdoW hs => foldl_writeField_other f' v f hne vids c.heap w sdoW hs,
          fun bdo h => ?_⟩
        injection h with h
        subst h
        exact ⟨_, lookupA_setA_self _ _ _, rfl⟩
  unfold updateBdoStep
  have hgen : ∀ c1 : Cache,
      (∀ w sdoW, c.heap.get? w = some sdoW →
        ∃ sdoW', c1.heap.get? w = some sdoW' ∧ lookupA sdoW' f = lookupA sdoW f) →
      (∀ bdo, lookupA c.bdoCache K = some bdo →
        ∃ bdo', lookupA c1.bdoCache K = some bdo' ∧
          lookupA bdo'.listeners f = lookupA bdo.listeners f) →
      (∀ w sdoW, c.heap.get? w = some sdoW →
        ∃ sdoW', (match lookupA c1.bdoCache K with
          | none => (c1, false)
          | some bdo =>
            match lookupA bdo.listeners f' with
            | none => (c1, false)
            | some vids =>
              ({ c1 with bdoCache := setA c1.bdoCache K { bdo with listeners := setA bdo.listeners f' (addId vids vid) } }, true)).1.heap.get? w = some sdoW' ∧
          lookupA sdoW' f = lookupA sdoW f) ∧
      (∀ bdo, lookupA c.bdoCache K = some bdo →
        ∃ bdo', lookupA (match lookupA c1.bdoCache K with
          | none => (c1, false)
          | some bdo =>
            match lookupA bdo.listeners f' with
            | none => (c1, false)
            | some vids =>
              ({ c1 with bdoCache := setA c1.bdoCache K { bdo with listeners := setA bdo.listeners f' (addId vids vid) } }, true)).1.bdoCache K = some bdo' ∧
          lookupA bdo'.listeners f = lookupA bdo.listeners f) := by
    intro c1 hheap hbdo
    rcases hb1 : lookupA c1.bdoCache K with _ | bdo1
    · exact ⟨hheap, fun bdo h => by
        obtain ⟨bdo', hb', hl'⟩ := hbdo bdo h
        rw [hb1] at hb'
        exact Option.noConfusion hb'⟩
    · simp only
      rcases hl1 : lookupA bdo1.listeners f' with _ | vids
      · refine ⟨hheap, fun bdo h => ?_⟩
        obtain ⟨bdo', hb', hl'⟩ := hbdo bdo h
        rw [hb1] at hb'
        injection hb' with hb'
        subst hb'
        exact ⟨bdo1, hb1, hl'⟩
      · refine ⟨hheap, fun bdo h => ?_⟩
        obtain ⟨bdo', hb', hl'⟩ := hbdo bdo h
        rw [hb1] at hb'
        injection hb' with hb'
        subst hb'
        refine ⟨_, lookupA_setA_self _ _ _, ?_⟩
        simp only
        rw [lookupA_setA_ne _ _ _ _ (fun hh => hne hh.symm)]
        exact hl'
  split
  · next xs =>
    split
    · exact hgen _ hufs.1 hufs.2
    · split
      · exact hgen _ hufs.1 hufs.2
      · exact hgen c (fun w sdoW hs => ⟨sdoW, hs, rfl⟩) (fun bdo h => ⟨bdo, h, rfl⟩)
  · split
    · exact hgen _ hufs.1 hufs.2
    · exact hgen c (fun w sdoW hs => ⟨sdoW, hs, rfl⟩) (fun bdo h => ⟨bdo, h, rfl⟩)

/-- `updateBdo` over fields other than `f` preserves every view's
field `f` and the record's listener set for `f`. -/
theorem updateBdo_frame : ∀ (data : List (String × Value)) (c : Cache) (K : String)
    (vid : Nat) (f : String), f ∉ data.map Prod.fst →
    (∀ w sdoW, c.heap.get? w = some sdoW →
      ∃ sdoW', (updateBdo c K data vid).1.heap.get? w = some sdoW' ∧
        lookupA sdoW' f = lookupA sdoW f) ∧
    (∀ bdo, lookupA c.bdoCache K = some bdo →
      ∃ bdo', lookupA (updateBdo c K data vid).1.bdoCache K = some bdo' ∧
        lookupA bdo'.listeners f = lookupA bdo.listeners f) := by
  intro data
  induction data with
  | nil =>
    intro c K vid f hf
    exact ⟨fun w sdoW hs => ⟨sdoW, hs, rfl⟩, fun bdo h => ⟨bdo, h, rfl⟩⟩
  | cons p rest ih =>
    intro c K vid f hf
    obtain ⟨f', v⟩ := p
    have hne : f' ≠ f := by
      intro hh
      exact hf (by simp [hh])
    have hstep := updateBdoStep_frame c K f' v vid f hne
    rw [updateBdo]
    by_cases hok : (updateBdoStep c K f' v vid).2
    · rw [if_pos hok]
      have hrest := ih (updateBdoStep c K f' v vid).1 K vid f (fun hh => hf (by simp [hh]))
      constructor
      · intro w sdoW hs
        obtain ⟨sdo1, hs1, hl1⟩ := hstep.1 w sdoW hs
        obtain ⟨sdo2, hs2, hl2⟩ := hrest.1 w sdo1 hs1
        exact ⟨sdo2, hs2, hl2.trans hl1⟩
      · intro bdo h
        obtain ⟨bdo1, hb1, hl1⟩ := hstep.2 bdo h
        obtain ⟨bdo2, hb2, hl2⟩ := hrest.2 bdo1 hb1
        exact ⟨bdo2, hb2, hl2.trans hl1⟩
    · rw [if_neg hok]
      exact hstep

/-- One `updateBdo` iteration on a scalar value whose field has a
registered listener set: the exact resulting state. -/
theorem updateBdoStep_flat (c : Cache) (K f : String) (v : Value) (vid : Nat)
    (bdo0 : BackingDataObject) (vids : List Nat)
    (hsc : isScalar v = true)
    (hb : lookupA c.bdoCache K = some bdo0)
    (hl : lookupA bdo0.listeners f = some vids) :
    updateBdoStep c K f v vid =
      ({ heap := vids.foldl (writeField f v) c.heap,
         bdoCache := setA c.bdoCache K
           { typedKey := bdo0.typedKey,
             serverValues := setA bdo0.serverValues f v,
             listeners := setA bdo0.listeners f (addId vids vid) },
         srtCache := c.srtCache }, true) := by
  have hufs : updateFromServer c K f v =
      { heap := vids.foldl (writeField f v) c.heap,
        bdoCache := setA c.bdoCache K
          { typedKey := bdo0.typedKey,
            serverValues := setA bdo0.serverValues f v,
            listeners := bdo0.listeners },
        srtCache := c.srtCache } := by
    unfold updateFromServer
    rw [hb]
    simp only
    unfold updateListeners
    rw [lookupA_setA_self]
    simp only [hl]
  have hmain :
      (match lookupA (updateFromServer c K f v).bdoCache K with
        | none => ((updateFromServer c K f v), false)
        | some bdo =>
          match lookupA bdo.listeners f with
          | none => ((updateFromServer c K f v), false)
          | some vids2 =>
            ({ updateFromServer c K f v with
                bdoCache := setA (updateFromServer c K f v).bdoCache K
                  { bdo with listeners := setA bdo.listeners f (addId vids2 vid) } }, true))
        = ({ heap := vids.foldl (writeField f v) c.heap,
             bdoCache := setA c.bdoCache K
               { typedKey := bdo0.typedKey,
                 serverValues := setA bdo0.serverValues f v,
                 listeners := setA bdo0.listeners f (addId vids vid) },
             srtCache := c.srtCache }, true) := by
    rw [hufs]
    simp only [lookupA_setA_self, hl, setA_setA_gen]
  cases v
  case varr xs => simp [isScalar] at hsc
  case vobj fs => simp [isScalar] at hsc
  all_goals exact hmain

/-- Looking a field up in a listener map built by folding `setA` with a
constant value over a field list. -/
theorem lookupA_foldl_setA_const {β : Type} (b : β) (f : String) :
    ∀ (fs : List (String × Value)) (L : List (String × β)),
    lookupA (fs.foldl (fun L p => setA L p.1 b) L) f =
      if f ∈ fs.map Prod.fst then some b else lookupA L f := by
  intro fs
  induction fs with
  | nil => intro L; simp
  | cons p rest ih =>
    intro L
    obtain ⟨k, v⟩ := p
    simp only [List.foldl_cons]
    rw [ih]
    by_cases hf : f ∈ rest.map Prod.fst
    · simp [hf]
    · by_cases hk : k = f
      · subst hk
        simp [hf, lookupA_setA_self]
      · simp only [hf, if_false, List.map_cons, List.mem_cons]
        rw [lookupA_setA_ne _ _ _ _ (fun hh => hk hh.symm)]
        simp [Ne.symm hk, hf]

/-- `updateBdo` on flat scalar data whose fields all carry a registered
listener set: the merge succeeds, the record map keeps its keys, the
record's listener set for every merged field gains the new view, every
registered listener view receives the new value of every merged field,
and views listening to no merged field are untouched. -/
theorem updateBdo_flat : ∀ (gs : List (String × Value)) (c : Cache) (K : String)
    (vid : Nat) (bdo0 : BackingDataObject),
    (gs.map Prod.fst).Nodup →
    (∀ p ∈ gs, isScalar p.2 = true) →
    lookupA c.bdoCache K = some bdo0 →
    (∀ p ∈ gs, ∃ vids, lookupA bdo0.listeners p.1 = some vids) →
    (updateBdo c K gs vid).2 = true ∧
    (updateBdo c K gs vid).1.srtCache = c.srtCache ∧
    (updateBdo c K gs vid).1.heap.length = c.heap.length ∧
    (updateBdo c K gs vid).1.bdoCache.map Prod.fst = c.bdoCache.map Prod.fst ∧
    (∃ bdo1, lookupA (updateBdo c K gs vid).1.bdoCache K = some bdo1 ∧
      (∀ p ∈ gs, ∀ vids, lookupA bdo0.listeners p.1 = some vids →
        lookupA bdo1.listeners p.1 = some (addId vids vid))) ∧
    (∀ p ∈ gs, ∀ vids, lookupA bdo0.listeners p.1 = some vids →
      ∀ w ∈ vids, ∀ sdoW, c.heap.get? w = some sdoW →
        ∃ sdoW', (updateBdo c K gs vid).1.heap.get? w = some sdoW' ∧
          lookupA sdoW' p.1 = some (.prim p.2)) ∧
    (∀ w, (∀ p ∈ gs, ∀ vids, lookupA bdo0.listeners p.1 = some vids → w ∉ vids) →
      (updateBdo c K gs vid).1.heap.get? w = c.heap.get? w) := by
  intro gs
  induction gs with
  | nil =>
    intro c K vid bdo0 _ _ hb _
    refine ⟨rfl, rfl, rfl, rfl, ⟨bdo0, hb, by simp⟩, by simp, fun w _ => rfl⟩
  | cons p rest ih =>
    intro c K vid bdo0 hnd hsc hb hls
    obtain ⟨f, v⟩ := p
    have hKmem : K ∈ c.bdoCache.map Prod.fst :=
      List.mem_map_of_mem Prod.fst (mem_of_lookupA_eq_some hb)
    have hfrest : f ∉ rest.map Prod.fst := by
      have := hnd
      simp only [List.map_cons, List.nodup_cons] at this
      exact this.1
    obtain ⟨vidsf, hlf⟩ := hls (f, v) (by simp)
    have hstep := updateBdoStep_flat c K f v vid bdo0 vidsf
      (hsc (f, v) (by simp)) hb hlf
    set bdoM : BackingDataObject :=
      { typedKey := bdo0.typedKey,
        serverValues := setA bdo0.serverValues f v,
        listeners := setA bdo0.listeners f (addId vidsf vid) } with hbdoM
    set cM : Cache :=
      { heap := vidsf.foldl (writeField f v) c.heap,
        bdoCache := setA c.bdoCache K bdoM,
        srtCache := c.srtCache } with hcM
    have hrun : updateBdo c K ((f, v) :: rest) vid = updateBdo cM K rest vid := by
      rw [updateBdo, hstep]
      simp
    rw [hrun]
    have hbM : lookupA cM.bdoCache K = some bdoM := lookupA_setA_self _ _ _
    have hlsM : ∀ p ∈ rest, ∃ vids, lookupA bdoM.listeners p.1 = some vids := by
      intro p hp
      obtain ⟨vids, hv⟩ := hls p (List.mem_cons_of_mem _ hp)
      refine ⟨vids, ?_⟩
      rw [hbdoM]
      simp only
      rw [lookupA_setA_ne _ _ _ _
        (fun hh => hfrest (by rw [← hh]; exact List.mem_map_of_mem Prod.fst hp))]
      exact hv
    have hlsTrans : ∀ p ∈ rest, lookupA bdoM.listeners p.1 = lookupA bdo0.listeners p.1 := by
      intro p hp
      rw [hbdoM]
      simp only
      exact lookupA_setA_ne _ _ _ _
        (fun hh => hfrest (by rw [← hh]; exact List.mem_map_of_mem Prod.fst hp))
    obtain ⟨ih1, ih2, ih3, ih4, ⟨bdo1, hb1, hbl1⟩, ih6, ih7⟩ :=
      ih cM K vid bdoM (by simpa using hnd.of_cons) (fun p hp => hsc p (List.mem_cons_of_mem _ hp))
        hbM hlsM
    have hframe := updateBdo_frame rest cM K vid f hfrest
    refine ⟨ih1, ?_, ?_, ?_, ?_, ?_, ?_⟩
    · rw [ih2, hcM]
    · rw [ih3, hcM]
      simp [length_foldl_writeField]
    · rw [ih4, hcM]
      simp only
      exact map_fst_setA_of_mem _ hKmem
    · refine ⟨bdo1, hb1, ?_⟩
      intro p hp vids hv
      rcases List.mem_cons.mp hp with hp0 | hpr
      · subst hp0
        rw [hlf] at hv
        injection hv with hv
        subst hv
        obtain ⟨bdo', hb', hl'⟩ := hframe.2 bdoM hbM
        rw [hb1] at hb'
        injection hb' with hb'
        subst hb'
        rw [hl', hbdoM]
        simp only
        exact lookupA_setA_self _ _ _
      · exact hbl1 p hpr vids ((hlsTrans p hpr).trans hv)
    · intro p hp vids hv w hw sdoW hsW
      rcases List.mem_cons.mp hp with hp0 | hpr
      · subst hp0
        rw [hlf] at hv
        injection hv with hv
        subst hv
        have hsM : cM.heap.get? w = some (setA sdoW f (.prim v)) := by
          rw [hcM]
          simp only
          exact get?_foldl_writeField_mem f v vidsf c.heap w sdoW hw hsW
        obtain ⟨sdoW', hs', hl'⟩ := hframe.1 w _ hsM
        exact ⟨sdoW', hs', by rw [hl']; exact lookupA_setA_self _ _ _⟩
      · have hsM : ∃ sdoM, cM.heap.get? w = some sdoM := by
          rw [hcM]
          simp only
          by_cases hwf : w ∈ vidsf
          · exact ⟨_, get?_foldl_writeField_mem f v vidsf c.heap w sdoW hwf hsW⟩
          · exact ⟨sdoW, by rw [get?_foldl_writeField_not_mem f v vidsf c.heap w hwf]; exact hsW⟩
        obtain ⟨sdoM, hsM⟩ := hsM
        exact ih6 p hpr vids ((hlsTrans p hpr).trans hv) w hw sdoM hsM
    · intro w hw
      have hwf : w ∉ vidsf := hw (f, v) (by simp) vidsf hlf
      have h1 : cM.heap.get? w = c.heap.get? w := by
        rw [hcM]
        simp only
        exact get?_foldl_writeField_not_mem f v vidsf c.heap w hwf
      rw [ih7 w ?_, h1]
      intro p hp vids hv
      rw [hlsTrans p hp] at hv
      exact hw p (List.mem_cons_of_mem _ hp) vids hv

/-- `normalizeSelectionSet` on a flat selection set whose entity key is
already cached: the node is allocated as a new view, the data is merged
into the existing record, every registered listener view receives every
new field value, and the new view joins each field's listener set. -/
theorem nss_flat_update (gs : List (String × Value)) (fuel : Nat) (c : Cache)
    (tn : String) (idv : Value) (bdo0 : BackingDataObject)
    (hf : gs.length < fuel)
    (hnd : (gs.map Prod.fst).Nodup)
    (hsc : ∀ p ∈ gs, isScalar p.2 = true)
    (htn : lookupA gs "__typename" = some (.vstr tn))
    (hid : lookupA gs "__id" = some idv)
    (hb : lookupA c.bdoCache (bdoCacheKey tn idv) = some bdo0)
    (hls : ∀ p ∈ gs, ∃ vids, lookupA bdo0.listeners p.1 = some vids) :
    ∃ cF, normalizeSelectionSet (fuel + 1) c (.vobj gs) = (cF, some (.ref c.heap.length)) ∧
      cF.srtCache = c.srtCache ∧
      cF.heap.length = c.heap.length + 1 ∧
      cF.bdoCache.map Prod.fst = c.bdoCache.map Prod.fst ∧
      (∃ bdo1, lookupA cF.bdoCache (bdoCacheKey tn idv) = some bdo1 ∧
        ∀ p ∈ gs, ∀ vids, lookupA bdo0.listeners p.1 = some vids →
          lookupA bdo1.listeners p.1 = some (addId vids c.heap.length)) ∧
      (∀ p ∈ gs, ∀ vids, lookupA bdo0.listeners p.1 = some vids →
        ∀ w ∈ vids, ∀ sdoW, c.heap.get? w = some sdoW →
          ∃ sdoW', cF.heap.get? w = some sdoW' ∧ lookupA sdoW' p.1 = some (.prim p.2)) ∧
      (∀ w, (∀ p ∈ gs, ∀ vids, lookupA bdo0.listeners p.1 = some vids → w ∉ vids) →
        cF.heap.get? w = (c.heap ++ [primFields gs]).get? w) := by
  have hflat := updateBdo_flat gs
    { heap := c.heap ++ [primFields gs], bdoCache := c.bdoCache, srtCache := c.srtCache }
    (bdoCacheKey tn idv) c.heap.length bdo0 hnd hsc hb hls
  rcases hu : updateBdo
      { heap := c.heap ++ [primFields gs], bdoCache := c.bdoCache, srtCache := c.srtCache }
      (bdoCacheKey tn idv) gs c.heap.length with ⟨c3, ok⟩
  rw [hu] at hflat
  obtain ⟨h1, h2, h3, h4, h5, h6, h7⟩ := hflat
  have hok : ok = true := h1
  subst hok
  refine ⟨c3, ?_, h2, by rw [h3]; simp, h4, h5, ?_, h7⟩
  · rw [normalizeSelectionSet]
    rw [show entriesOf (.vobj gs) = some gs from rfl]
    simp only
    rw [normalizeFields_flat gs fuel c hf hsc]
    simp only
    have hnorm : isNormalizeableCached (primFields gs) = true := by
      unfold isNormalizeableCached
      have h1 := any_key_of_lookupA (l := primFields gs) (k := "__typename")
        (v := .prim (.vstr tn)) (by rw [lookupA_primFields, htn]; rfl)
      have h2 := any_key_of_lookupA (l := primFields gs) (k := "__id")
        (v := .prim idv) (by rw [lookupA_primFields, hid]; rfl)
      simp only [primFields] at h1 h2
      simp [primFields, h1, h2]
    rw [if_pos hnorm]
    simp only [lookupA_primFields, htn, hid, Option.map_some', Option.getD_some,
      resolveFuel, nvalSize, resolveNVal_prim, jsToString]
    rw [hb]
    simp only
    rw [hu]
  · intro p hp vids hv w hw sdoW hsW
    have hlen : w < c.heap.length := (List.get?_eq_some.mp hsW).1
    have hsW2 : (c.heap ++ [primFields gs]).get? w = some sdoW := by
      rw [List.get?_append hlen]
      exact hsW
    exact h6 p hp vids hv w hw sdoW hsW2

/-- `updateCache` on a result tree with one object-valued top-level
field, expressed through the underlying `normalizeSelectionSet` run. -/
theorem updateCache_single_obj (w : Nat) (c : Cache) (qn : String) (vars : Value)
    (a : String) (fs : List (String × Value)) (cF : Cache) (nv : NVal)
    (hvars : (entriesOf vars).isSome = true)
    (h : normalizeSelectionSet (w + 1) c (.vobj fs) = (cF, some nv)) :
    updateCache (w + 1 + 1) c qn vars (.vobj [(a, .vobj fs)]) =
      ({ cF with srtCache := setA cF.srtCache (srtCacheKey qn vars) [(a, nv)] }, true) := by
  obtain ⟨ves, hves⟩ := Option.isSome_iff_exists.mp hvars
  unfold updateCache
  rw [hves]
  simp only
  rw [show entriesOf (.vobj [(a, .vobj fs)]) = some [(a, .vobj fs)] from rfl]
  simp only
  rw [createSrtFields]
  simp only [h]
  case x_4 => intro xs hx; exact Value.noConfusion hx
  cases w with
  | zero =>
    rw [normalizeSelectionSet] at h
    simp only [createSrtFields]
  | succ w' =>
    simp only [createSrtFields]

/-- C1: an entity cached by one `updateCache` call and cached again with
fresh scalar field values by a second call ends up with exactly one
canonical record under its entity key; the previously returned view
receives the new value of every (scalar) field, and both the old view
and the new view are registered as listeners of the record for every
field of the second result.  (Fields holding selection sets or fully
normalizable arrays are skipped by the merge, see the counterexample.) -/
theorem c1_recache_updates_old_views (c : Cache) (qn1 qn2 : String)
    (vars1 vars2 : Value) (a1 a2 tn : String) (idv : Value)
    (fs gs : List (String × Value)) (f1 f2 : Nat) (r1 r2 : Cache × Bool)
    (hr1 : r1 = updateCache f1 c qn1 vars1 (.vobj [(a1, .vobj fs)]))
    (hr2 : r2 = updateCache f2 r1.1 qn2 vars2 (.vobj [(a2, .vobj gs)]))
    (hf1 : fs.length + 2 < f1) (hf2 : gs.length + 2 < f2)
    (hndg : (gs.map Prod.fst).Nodup)
    (hscf : ∀ p ∈ fs, isScalar p.2 = true)
    (hscg : ∀ p ∈ gs, isScalar p.2 = true)
    (htnf : lookupA fs "__typename" = some (.vstr tn))
    (hidf : lookupA fs "__id" = some idv)
    (htng : lookupA gs "__typename" = some (.vstr tn))
    (hidg : lookupA gs "__id" = some idv)
    (hsub : ∀ p ∈ gs, p.1 ∈ fs.map Prod.fst)
    (hfresh : lookupA c.bdoCache (bdoCacheKey tn idv) = none)
    (hv1 : (entriesOf vars1).isSome = true)
    (hv2 : (entriesOf vars2).isSome = true) :
    r1.2 = true ∧ r2.2 = true ∧
    (r2.1.bdoCache.map Prod.fst).count (bdoCacheKey tn idv) = 1 ∧
    (∃ sdo0, r2.1.heap.get? c.heap.length = some sdo0 ∧
      ∀ p ∈ gs, lookupA sdo0 p.1 = some (.prim p.2)) ∧
    r2.1.heap.get? (c.heap.length + 1) = some (primFields gs) ∧
    (∃ bdo, lookupA r2.1.bdoCache (bdoCacheKey tn idv) = some bdo ∧
      ∀ p ∈ gs, lookupA bdo.listeners p.1 =
        some [c.heap.length, c.heap.length + 1]) := by
  subst hr1
  subst hr2
  obtain ⟨w1, rfl⟩ : ∃ w, f1 = w + 1 + 1 := ⟨f1 - 2, by omega⟩
  obtain ⟨w2, rfl⟩ : ∃ w, f2 = w + 1 + 1 := ⟨f2 - 2, by omega⟩
  have hKnot : bdoCacheKey tn idv ∉ c.bdoCache.map Prod.fst := by
    intro hmem
    obtain ⟨v, hv⟩ := lookupA_isSome_of_mem hmem
    rw [hfresh] at hv
    exact Option.noConfusion hv
  obtain ⟨cA, hA, hAbdo, hAheapLen, hAheapAt, hAkeys⟩ :
      ∃ cA, updateCache (w1 + 1 + 1) c qn1 vars1 (.vobj [(a1, .vobj fs)]) = (cA, true) ∧
        lookupA cA.bdoCache (bdoCacheKey tn idv) =
          some ⟨bdoCacheKey tn idv, [],
            fs.foldl (fun L q => setA L q.1 [c.heap.length]) []⟩ ∧
        cA.heap.length = c.heap.length + 1 ∧
        cA.heap.get? c.heap.length = some (primFields fs) ∧
        cA.bdoCache.map Prod.fst = c.bdoCache.map Prod.fst ++ [bdoCacheKey tn idv] := by
    refine ⟨_, updateCache_single_obj w1 c qn1 vars1 a1 fs _ _ hv1
        (nss_flat_create fs w1 c tn idv (by omega) hscf htnf hidf hfresh),
      ?_, ?_, ?_, ?_⟩
    · exact lookupA_setA_self _ _ _
    · simp
    · exact List.get?_concat_length _ _
    · show (setA c.bdoCache (bdoCacheKey tn idv) _).map Prod.fst = _
      rw [setA_of_not_mem _ hKnot]
      simp
  have hlsVal : ∀ p ∈ gs,
      lookupA (fs.foldl (fun L q => setA L q.1 [c.heap.length]) []) p.1 =
        some [c.heap.length] := by
    intro p hp
    rw [lookupA_foldl_setA_const]
    simp [hsub p hp]
  obtain ⟨cF, hEq, hSrt, hLen, hKeys, ⟨bdo1, hB1, hBL⟩, hWrite, hUnt⟩ :=
    nss_flat_update gs w2 cA tn idv
      ⟨bdoCacheKey tn idv, [], fs.foldl (fun L q => setA L q.1 [c.heap.length]) []⟩
      (by omega) hndg hscg htng hidg hAbdo
      (fun p hp => ⟨[c.heap.length], hlsVal p hp⟩)
  have hB2 := updateCache_single_obj w2 cA qn2 vars2 a2 gs cF _ hv2 hEq
  simp only [hA]
  simp only [hB2]
  refine ⟨trivial, trivial, ?_, ?_, ?_, ?_⟩
  · show (cF.bdoCache.map Prod.fst).count (bdoCacheKey tn idv) = 1
    rw [hKeys, hAkeys, List.count_append]
    rw [List.count_eq_zero.mpr hKnot]
    simp
  · show ∃ sdo0, cF.heap.get? c.heap.length = some sdo0 ∧
      ∀ p ∈ gs, lookupA sdo0 p.1 = some (.prim p.2)
    have hlt : c.heap.length < cF.heap.length := by
      rw [hLen, hAheapLen]
      omega
    obtain ⟨sdo0, hsdo0⟩ := get?_isSome_of_lt hlt
    refine ⟨sdo0, hsdo0, ?_⟩
    intro p hp
    obtain ⟨sdoW', hs', hl'⟩ := hWrite p hp [c.heap.length] (hlsVal p hp)
      c.heap.length (by simp) (primFields fs) hAheapAt
    rw [hsdo0] at hs'
    injection hs' with hs'
    subst hs'
    exact hl'
  · show cF.heap.get? (c.heap.length + 1) = some (primFields gs)
    have hprem : ∀ p ∈ gs, ∀ vids,
        lookupA (fs.foldl (fun L q => setA L q.1 [c.heap.length]) []) p.1 = some vids →
          cA.heap.length ∉ vids := by
      intro p hp vids hv
      rw [hlsVal p hp] at hv
      injection hv with hv
      subst hv
      rw [hAheapLen]
      simp
    have hNew := hUnt cA.heap.length hprem
    rw [List.get?_concat_length] at hNew
    rw [← hAheapLen]
    exact hNew
  · show ∃ bdo, lookupA cF.bdoCache (bdoCacheKey tn idv) = some bdo ∧
      ∀ p ∈ gs, lookupA bdo.listeners p.1 = some [c.heap.length, c.heap.length + 1]
    refine ⟨bdo1, hB1, ?_⟩
    intro p hp
    have h := hBL p hp [c.heap.length] (hlsVal p hp)
    rw [hAheapLen] at h
    rw [h]
    simp [addId]

/-- Witness instantiating the C1 theorem on a concrete two-call run:
the entity `M|"1"` is cached twice and keeps a single canonical record. -/
theorem c1_recache_witness :
    ((updateCache 6 (updateCache 6 emptyCache "listMovies" (.vobj [])
        (.vobj [("movie", .vobj [("__typename", .vstr "M"), ("__id", .vstr "1"),
          ("title", .vstr "A")])])).1 "getMovie" (.vobj [])
        (.vobj [("m", .vobj [("__typename", .vstr "M"), ("__id", .vstr "1"),
          ("title", .vstr "B")])])).1.bdoCache.map Prod.fst).count
      (bdoCacheKey "M" (.vstr "1")) = 1 :=
  (c1_recache_updates_old_views emptyCache "listMovies" "getMovie"
    (.vobj []) (.vobj []) "movie" "m" "M" (.vstr "1")
    [("__typename", .vstr "M"), ("__id", .vstr "1"), ("title", .vstr "A")]
    [("__typename", .vstr "M"), ("__id", .vstr "1"), ("title", .vstr "B")]
    6 6 _ _ rfl rfl (by decide) (by decide) (by decide) (by decide) (by decide)
    rfl rfl rfl rfl (by decide) rfl rfl rfl).2.2.1

/-- Counterexample to C1 as stated: a selected field holding a plain
(non-normalizable) object is skipped by the merge pass, so after a
second call reporting success the old view still holds the stale object
while the new view holds the fresh one. -/
theorem c1_counterexample :
    (updateCache 20 (updateCache 20 emptyCache "q1" (.vobj [])
        (.vobj [("m", .vobj [("__typename", .vstr "M"), ("__id", .vstr "1"),
          ("meta", .vobj [("x", .vnum 1)])])])).1 "q2" (.vobj [])
        (.vobj [("m", .vobj [("__typename", .vstr "M"), ("__id", .vstr "1"),
          ("meta", .vobj [("x", .vnum 2)])])])).2 = true ∧
    ((updateCache 20 (updateCache 20 emptyCache "q1" (.vobj [])
        (.vobj [("m", .vobj [("__typename", .vstr "M"), ("__id", .vstr "1"),
          ("meta", .vobj [("x", .vnum 1)])])])).1 "q2" (.vobj [])
        (.vobj [("m", .vobj [("__typename", .vstr "M"), ("__id", .vstr "1"),
          ("meta", .vobj [("x", .vnum 2)])])])).1.heap.get? 0).map
      (fun sdo => lookupA sdo "meta") =
      some (some (.nobj [("x", .prim (.vnum 1))])) ∧
    ((updateCache 20 (updateCache 20 emptyCache "q1" (.vobj [])
        (.vobj [("m", .vobj [("__typename", .vstr "M"), ("__id", .vstr "1"),
          ("meta", .vobj [("x", .vnum 1)])])])).1 "q2" (.vobj [])
        (.vobj [("m", .vobj [("__typename", .vstr "M"), ("__id", .vstr "1"),
          ("meta", .vobj [("x", .vnum 2)])])])).1.heap.get? 1).map
      (fun sdo => lookupA sdo "meta") =
      some (some (.nobj [("x", .prim (.vnum 2))])) ∧
    (NVal.nobj [("x", NVal.prim (.vnum 1))]) ≠ (NVal.nobj [("x", NVal.prim (.vnum 2))]) :=
  ⟨rfl, rfl, rfl, by simp⟩

/-- C5: the claim (and the spec) say one `updateCache` call on a result
whose top-level field holds a list of N pairwise-distinct, previously
uncached normalizable entities creates exactly N canonical records,
each with one listening view.  But
`selectionSet.map(this.normalizeSelectionSet)` passes the method to
`map` unbound, so inside the strict-mode callback `this` is `undefined`
and the first entity (any element with at least one own entry) reaches
a `this.` access and throws a `TypeError` before anything is cached:
any list starting with such an element fails with the cache unchanged
(first conjunct), and at the failing input (a single flat `Movie`
entity) the call reports failure with nothing cached and zero records
created (second conjunct). -/
theorem c5_unbound_mapNormalize_throws :
    (∀ (fuel : Nat) (c : Cache) (x : Value) (xs : List Value)
      (e : String × Value) (es : List (String × Value)),
      entriesOf x = some (e :: es) →
      mapNormalize (fuel + 1) c (x :: xs) = (c, none)) ∧
    (updateCache 20 emptyCache "listMovies" (.vobj [])
      (.vobj [("movies", .varr [ .vobj [("__typename", .vstr "Movie"),
        ("__id", .vstr "1"), ("title", .vstr "The Matrix")] ])])) =
      (emptyCache, false) := by
  constructor
  · intro fuel c x xs e es hent
    rw [mapNormalize, hent]
  · rfl
